import Mathlib

/-!
Shallow embedding of `serpentine.py` (the serpentine-binning engine).

Modelling conventions:
* A 2-D numpy array is a `Mat`: explicit `rows`/`cols` and a flat row-major
  `data : List ℚ`.  All numeric values (int or float in the source) are
  embedded as exact rationals; the spec's floating-point tolerances become
  exact equalities.
* Python lists become `List`, Python sets become duplicate-free `List ℕ`
  (`listAdd`/`listUnion` mirror `set.add`/`set.update`); the iteration order of
  a Python set is unspecified, which the embedding models by fixing one order
  and letting the random pick index range over all positions.
* The randomness of a trial is an explicit pair of oracles:
  `perms p` is the visit order drawn by `np.random.permutation` for pass `p`,
  and `picks p k` is the draw used by `random.choice` at position `k` of
  pass `p` (the chosen neighbour is the entry at index `picks p k % length`,
  so every element of the neighbour set is selected by some draw).
* `np.log2` is an abstract parameter `log2 : ℚ → ℚ` (a transcendental
  real function has no computable rational embedding); claims that depend on
  actual log values only need `log2 1 = 0`.
* Exceptions become `Except SerpErr`: the two `ValueError`s of the input
  validation, and the `IndexError` that `random.choice` raises on an empty
  sequence.  The unbounded `while` loop is run on explicit fuel with the
  extra error `outOfFuel`; the development proves the chosen fuel is never
  exhausted, so this artifact never escapes.
-/

/-- Errors observable from `serpentin_iteration` / `serpentin_binning`. -/
inductive SerpErr where
  | valueError (msg : String)
  | indexError
  | outOfFuel
deriving DecidableEq, Repr

/-- A 2-D numpy array: shape plus flat row-major data. -/
structure Mat where
  rows : ℕ
  cols : ℕ
  data : List ℚ
deriving DecidableEq, Repr

/-- The mutable trial state: `pixels[i]` is `None` (dead) or the member list of
region `i`; `neighs[i]` is `None` (dead) or the neighbour set of region `i`,
represented as a duplicate-free list of region indices. -/
structure SState where
  pixels : List (Option (List ℕ))
  neighs : List (Option (List ℕ))
deriving DecidableEq, Repr

/-- `set.add`: append the element unless already present. -/
def listAdd (l : List ℕ) (z : ℕ) : List ℕ := if z ∈ l then l else l ++ [z]

/-- `set.update`: add every element of `m` to `l`. -/
def listUnion (l m : List ℕ) : List ℕ := m.foldl listAdd l

/-- `pixel_neighs_triangular(i, j, size)` from the source: the 4-neighbours of
cell `(i, j)` restricted to the lower triangle of a `size × size` grid. -/
def pixel_neighs_triangular (i j size : ℕ) : List (ℕ × ℕ) :=
  (if 0 < i ∧ j ≤ i - 1 then [(i - 1, j)] else []) ++
  (if i < size - 1 ∧ j ≤ i + 1 then [(i + 1, j)] else []) ++
  (if 0 < j ∧ j - 1 ≤ i then [(i, j - 1)] else []) ++
  (if j < size - 1 ∧ j + 1 ≤ i then [(i, j + 1)] else [])

/-- `pixel_neighs(i, j, w, h)` from the source: the in-bounds 4-neighbours of
cell `(i, j)` in a `w × h` grid. -/
def pixel_neighs (i j w h : ℕ) : List (ℕ × ℕ) :=
  (if 0 < i then [(i - 1, j)] else []) ++
  (if i < w - 1 then [(i + 1, j)] else []) ++
  (if 0 < j then [(i, j - 1)] else []) ++
  (if j < h - 1 then [(i, j + 1)] else [])

/-- `itertools.product(range r, range c)` in row-major order. -/
def gridCells (r c : ℕ) : List (ℕ × ℕ) :=
  (List.range r).flatMap (fun i => (List.range c).map (fun j => (i, j)))

/-- The cells of `itertools.product(range n, range n)` with `i >= j`
(lower triangle including the diagonal), in enumeration order. -/
def triCells (n : ℕ) : List (ℕ × ℕ) :=
  (gridCells n n).filter (fun p => p.2 ≤ p.1)

/-- The triangular linear index `i*(i+1)/2 + j` of a lower-triangle cell:
its position in `triCells`. -/
def triIdx (p : ℕ × ℕ) : ℕ := p.1 * (p.1 + 1) / 2 + p.2

/-- Region-state initialisation, as built by the two list comprehensions of
`serpentin_iteration`: one singleton region per pixel (member lists hold flat
row-major indices into the matrix data) and each region's neighbour set
(`set(...)` is mirrored by `dedup`).  In triangular mode the source writes the
flat index as `i * size[0] + j` and the region index as `i*(i+1)/2 + j`. -/
def initState (tri : Bool) (r c : ℕ) : SState :=
  if tri then
    { pixels := (triCells r).map (fun p => some [p.1 * r + p.2])
      neighs := (triCells r).map (fun p =>
        some (((pixel_neighs_triangular p.1 p.2 r).map triIdx).dedup)) }
  else
    { pixels := (gridCells r c).map (fun p => some [p.1 * c + p.2])
      neighs := (gridCells r c).map (fun p =>
        some (((pixel_neighs p.1 p.2 r c).map (fun q => q.1 * c + q.2)).dedup)) }

/-- Number of singleton regions at trial start (`start` in the source). -/
def numRegions (tri : Bool) (r c : ℕ) : ℕ := (initState tri r c).pixels.length

/-- The pixel universe: the flat indices owned by the initial regions. -/
def universeL (tri : Bool) (r c : ℕ) : List ℕ :=
  if tri then (triCells r).map (fun p => p.1 * r + p.2)
  else (gridCells r c).map (fun p => p.1 * c + p.2)

/-- `np.sum(U[pixels[serp]])`: aggregate of a member list over flat data. -/
def aggregate (U : List ℚ) (mem : List ℕ) : ℚ :=
  (mem.map (fun k => U.getD k 0)).sum

/-- Number of live regions: `sum(serp is not None for serp in pixels)`. -/
def aliveCount (st : SState) : ℕ :=
  (st.pixels.map (fun op => if op.isSome then 1 else 0)).sum

/-- The in-place merge of `pixels[min_neigh]` into `pixels[serp]`, exactly in
source order: concatenate members, drop the mutual edge, absorb the victim's
neighbour set, rewire every remaining neighbour of the victim from `min_neigh`
to `serp`, then tombstone `min_neigh`. -/
def mergeRegions (st : SState) (serp mn : ℕ) : SState :=
  let pSerp := (st.pixels.getD serp none).getD []
  let pMn := (st.pixels.getD mn none).getD []
  let nSerp := (st.neighs.getD serp none).getD []
  let nMn := (st.neighs.getD mn none).getD []
  let nMn1 := nMn.erase serp
  let newNSerp := listUnion (nSerp.erase mn) nMn1
  let pixels1 := st.pixels.set serp (some (pSerp ++ pMn))
  let neighs1 := st.neighs.set serp (some newNSerp)
  let neighs2 := nMn1.foldl
    (fun ns z => ns.set z (some (listAdd (((ns.getD z none).getD []).erase mn) serp))) neighs1
  { pixels := pixels1.set mn none, neighs := neighs2.set mn none }

/-- One visit of the pass body: skip dead entries; aggregate; test the merge
predicate `(a < T and b < T) or (a < M or b < M)`; on success draw a neighbour
with `random.choice` (IndexError on an empty neighbour set) and merge. -/
def visitStep (U V : List ℚ) (T M : ℚ) (pick : ℕ) (st : SState) (serp : ℕ) :
    Except SerpErr SState :=
  match st.pixels.getD serp none with
  | none => .ok st
  | some mem =>
    let a := aggregate U mem
    let b := aggregate V mem
    if (a < T ∧ b < T) ∨ (a < M ∨ b < M) then
      let ns := (st.neighs.getD serp none).getD []
      if ns.length = 0 then .error .indexError
      else
        let min_neigh := ns.getD (pick % ns.length) 0
        .ok (mergeRegions st serp min_neigh)
    else .ok st

/-- One full pass: visit the region slots in the drawn order, threading the
state; `k` counts the position inside the pass for the pick oracle. -/
def runPass (U V : List ℚ) (T M : ℚ) (pk : ℕ → ℕ) (visit : List ℕ) (k : ℕ)
    (st : SState) : Except SerpErr SState :=
  match visit with
  | [] => .ok st
  | serp :: rest =>
    match visitStep U V T M (pk k) st serp with
    | .error e => .error e
    | .ok st' => runPass U V T M pk rest (k + 1) st'

/-- The `while current_existent != previous_existent` loop of the merger, on
explicit fuel (proved sufficient below).  `p` is the pass counter feeding the
random oracles. -/
def mergerLoop (U V : List ℚ) (T M : ℚ) (perms : ℕ → List ℕ)
    (picks : ℕ → ℕ → ℕ) : ℕ → ℕ → ℕ → ℕ → SState → Except SerpErr SState
  | 0, _, _, _, _ => .error .outOfFuel
  | fuel + 1, prev, cur, p, st =>
    if cur = prev then .ok st
    else
      match runPass U V T M (picks p) (perms p) 0 st with
      | .error e => .error e
      | .ok st' => mergerLoop U V T M perms picks fuel cur (aliveCount st') (p + 1) st'

/-- The merger of one trial: initial region graph, then the pass loop started
with the sentinel values `previous_existent = 0`, `current_existent = 1`. -/
def serpentinConverge (U V : List ℚ) (T M : ℚ) (tri : Bool) (r c : ℕ)
    (perms : ℕ → List ℕ) (picks : ℕ → ℕ → ℕ) : Except SerpErr SState :=
  let st0 := initState tri r c
  mergerLoop U V T M perms picks (aliveCount st0 + 4) 0 1 0 st0

/-- Write value `v` into every slot of `mem` (`U[serp] = ...`). -/
def writeAll (mem : List ℕ) (v : ℚ) (u : List ℚ) : List ℚ :=
  mem.foldl (fun acc k => acc.set k v) u

/-- The reduction loop `for serp in pix: U[serp] = np.sum(U[serp]) / len(serp)`:
replace every live region's entries by the region mean, in list order. -/
def meanFill (ps : List (Option (List ℕ))) (u : List ℚ) : List ℚ :=
  match ps with
  | [] => u
  | none :: rest => meanFill rest u
  | some mem :: rest =>
    meanFill rest (writeAll mem (aggregate u mem * 1 / (mem.length : ℚ)) u)

/-- Entry `(i, j)` of `np.tril(U)` for an `n × n` flat matrix. -/
def trilEntry (n : ℕ) (U : List ℚ) (i j : ℕ) : ℚ :=
  if j ≤ i then U.getD (i * n + j) 0 else 0

/-- `np.tril(U) + np.tril(U).T - np.diag(np.diag(np.tril(U)))`, flat. -/
def amodTri (n : ℕ) (U : List ℚ) : List ℚ :=
  (List.range (n * n)).map (fun k =>
    trilEntry n U (k / n) (k % n) + trilEntry n U (k % n) (k / n) -
      (if k / n = k % n then trilEntry n U (k / n) (k % n) else 0))

/-- The triangular ratio matrix: zeros, with `D[trili] = log2(V[trili]/U[trili])`
on the lower-triangle-including-diagonal positions. -/
def dTri (log2 : ℚ → ℚ) (n : ℕ) (U V : List ℚ) : List ℚ :=
  (List.range (n * n)).map (fun k =>
    if k % n ≤ k / n then log2 (V.getD k 0 * 1 / U.getD k 0) else 0)

/-- The full ratio matrix `D = log2(V * 1. / U)`, elementwise. -/
def dFull (log2 : ℚ → ℚ) (U V : List ℚ) : List ℚ :=
  (List.range U.length).map (fun k => log2 (V.getD k 0 * 1 / U.getD k 0))

/-- The input validation shared by `serpentin_iteration` and
`serpentin_binning`: shape equality (2-D is inherent to `Mat`), squareness
under the triangular flag, and `minthreshold < threshold`. -/
def validateInput (A B : Mat) (threshold minthreshold : ℚ) (tri : Bool) :
    Except SerpErr Unit :=
  if tri then
    if A.rows = B.rows ∧ A.cols = B.cols ∧ min A.rows A.cols = max A.rows A.cols then
      if minthreshold < threshold then .ok ()
      else .error (.valueError "Minimal threshold should be lower than maximal")
    else .error (.valueError "Matrices must be square and have identical shape")
  else
    if A.rows = B.rows ∧ A.cols = B.cols then
      if minthreshold < threshold then .ok ()
      else .error (.valueError "Minimal threshold should be lower than maximal")
    else .error (.valueError "Matrices must have identical shape")

/-- `serpentin_iteration`: validate, run the merger to convergence, mean-fill
both working matrices, and build `(Amod, Bmod, D)` for the requested mode. -/
def serpentin_iteration (log2 : ℚ → ℚ) (perms : ℕ → List ℕ) (picks : ℕ → ℕ → ℕ)
    (A B : Mat) (threshold minthreshold : ℚ) (triangular : Bool) :
    Except SerpErr (List ℚ × List ℚ × List ℚ) :=
  match validateInput A B threshold minthreshold triangular with
  | .error e => .error e
  | .ok () =>
    match serpentinConverge A.data B.data threshold minthreshold triangular
        A.rows A.cols perms picks with
    | .error e => .error e
    | .ok stF =>
      let Uf := meanFill stF.pixels A.data
      let Vf := meanFill stF.pixels B.data
      if triangular then
        .ok (amodTri A.rows Uf, amodTri A.rows Vf, dTri log2 A.rows Uf Vf)
      else
        .ok (Uf, Vf, dFull log2 Uf Vf)

/-- Elementwise sum of two flat matrices (`sA = sA + At`). -/
def addMat (x y : List ℚ) : List ℚ := x.zipWith (· + ·) y

/-- `serpentin_binning`: validate (the source checks only shapes and
`minthreshold < threshold`; `iterations` and `parallel` are never validated),
then run `int(iterations)` independent trials — `parallel` only selects the
pool or the sequential branch, both of which sum the same per-trial results —
and divide the sums by `iterations`.  The trial oracles are indexed by trial
number.  (numpy's division of the zero sums by `iterations = 0` yields
NaN/inf without raising; rational division by zero likewise yields a value,
`0`, and no error.) -/
def binRun (log2 : ℚ → ℚ) (perms2 : ℕ → ℕ → List ℕ)
    (picks2 : ℕ → ℕ → ℕ → ℕ) (A B : Mat) (threshold minthreshold : ℚ)
    (iterations : ℤ) (triangular : Bool) :
    Except SerpErr (List ℚ × List ℚ × List ℚ) :=
  (List.range iterations.toNat).foldl
    (fun acc t =>
      match acc with
      | .error e => .error e
      | .ok (sA, sB, sK) =>
        match serpentin_iteration log2 (perms2 t) (picks2 t) A B threshold
            minthreshold triangular with
        | .error e => .error e
        | .ok (At, Bt, Kt) => .ok (addMat sA At, addMat sB Bt, addMat sK Kt))
    (.ok (List.replicate A.data.length 0, List.replicate A.data.length 0,
      List.replicate A.data.length 0))

def serpentin_binning (log2 : ℚ → ℚ) (perms2 : ℕ → ℕ → List ℕ)
    (picks2 : ℕ → ℕ → ℕ → ℕ) (A B : Mat) (threshold minthreshold : ℚ)
    (iterations : ℤ) (triangular : Bool) (parallel : ℤ) :
    Except SerpErr (List ℚ × List ℚ × List ℚ) :=
  match validateInput A B threshold minthreshold triangular with
  | .error e => .error e
  | .ok () =>
    match binRun log2 perms2 picks2 A B threshold minthreshold iterations
        triangular with
    | .error e => .error e
    | .ok (sA, sB, sK) =>
      .ok (sA.map (· * 1 / (iterations : ℚ)), sB.map (· * 1 / (iterations : ℚ)),
        sK.map (· * 1 / (iterations : ℚ)))

/-- Result destructors used to state concrete evaluations. -/
def outAmod (res : Except SerpErr (List ℚ × List ℚ × List ℚ)) : List ℚ :=
  match res with
  | .ok (a, _, _) => a
  | .error _ => []

def outBmod (res : Except SerpErr (List ℚ × List ℚ × List ℚ)) : List ℚ :=
  match res with
  | .ok (_, b, _) => b
  | .error _ => []

def outD (res : Except SerpErr (List ℚ × List ℚ × List ℚ)) : List ℚ :=
  match res with
  | .ok (_, _, d) => d
  | .error _ => []

def isOk (res : Except SerpErr (List ℚ × List ℚ × List ℚ)) : Bool :=
  match res with
  | .ok _ => true
  | .error _ => false

def errOf (res : Except SerpErr (List ℚ × List ℚ × List ℚ)) : Option SerpErr :=
  match res with
  | .ok _ => none
  | .error e => some e

/-- How many live regions contain pixel `x`, counted with multiplicity. -/
def ownersCount (st : SState) (x : ℕ) : ℕ :=
  (st.pixels.map (fun op => match op with | none => 0 | some l => l.count x)).sum

/-- Grid adjacency of two flat pixel indices, in the mode's universe: `y` is a
(mode-restricted) 4-neighbour of `x`. -/
def Adj (tri : Bool) (r c : ℕ) (x y : ℕ) : Prop :=
  if tri then
    ∃ i j, j ≤ i ∧ i < r ∧ x = i * r + j ∧
      ∃ q ∈ pixel_neighs_triangular i j r, y = q.1 * r + q.2
  else
    ∃ i j, i < r ∧ j < c ∧ x = i * c + j ∧
      ∃ q ∈ pixel_neighs i j r c, y = q.1 * c + q.2

/-- The merge predicate of the source,
`(a < threshold and b < threshold) or (a < minthreshold or b < minthreshold)`,
for a region with member list `mem`. -/
def regionPred (U V : List ℚ) (T M : ℚ) (mem : List ℕ) : Prop :=
  (aggregate U mem < T ∧ aggregate V mem < T) ∨
    (aggregate U mem < M ∨ aggregate V mem < M)

/-- The partition property of a region state: every pixel of the universe lies
in exactly one live region (counted with multiplicity, so member lists are
also duplicate-free), live member lists are pairwise disjoint and cover the
universe, and no live region owns anything outside the universe. -/
structure Partition (tri : Bool) (r c : ℕ) (st : SState) : Prop where
  inU : ∀ x ∈ universeL tri r c, ownersCount st x = 1
  outU : ∀ x, x ∉ universeL tri r c → ownersCount st x = 0
  disj : ∀ i j li lj, i ≠ j → st.pixels.getD i none = some li →
    st.pixels.getD j none = some lj → ∀ x ∈ li, x ∉ lj
  cover : ∀ x ∈ universeL tri r c, ∃ i l, st.pixels.getD i none = some l ∧ x ∈ l

/-- The full data-structure invariant of the merger state: list lengths,
the ownership partition, liveness agreement of the two arrays, neighbour
sets that are duplicate-free symmetric edges between distinct live regions,
and neighbour sets that cover all grid adjacencies leaving a region. -/
structure SInv (tri : Bool) (r c : ℕ) (st : SState) : Prop where
  lenP : st.pixels.length = numRegions tri r c
  lenN : st.neighs.length = st.pixels.length
  owners : ∀ x ∈ universeL tri r c, ownersCount st x = 1
  membU : ∀ i l, st.pixels.getD i none = some l → ∀ x ∈ l, x ∈ universeL tri r c
  membNE : ∀ i l, st.pixels.getD i none = some l → l ≠ []
  aliveIff : ∀ i, (st.pixels.getD i none).isSome ↔ (st.neighs.getD i none).isSome
  neighNodup : ∀ i s, st.neighs.getD i none = some s → s.Nodup
  neighOK : ∀ i s, st.neighs.getD i none = some s → ∀ z ∈ s,
    z < st.pixels.length ∧ z ≠ i ∧ ∃ s', st.neighs.getD z none = some s' ∧ i ∈ s'
  adjClosed : ∀ i l, st.pixels.getD i none = some l → ∀ x ∈ l, ∀ y,
    Adj tri r c x y → y ∈ l ∨ ∃ s j lj, st.neighs.getD i none = some s ∧ j ∈ s ∧
      st.pixels.getD j none = some lj ∧ y ∈ lj

/-- Agreement of two flat `n × n` matrices on all lower-triangle-including-
diagonal entries. -/
def LowAgree (n : ℕ) (u u' : List ℚ) : Prop :=
  ∀ i j, j ≤ i → i < n → u.getD (i * n + j) 0 = u'.getD (i * n + j) 0

/-! ### Generic list lemmas -/

theorem getD_of_ge {α : Type} (l : List α) (d : α) {k : ℕ} (h : l.length ≤ k) :
    l.getD k d = d := by
  simp [List.getD_eq_getElem?_getD, List.getElem?_eq_none h]

theorem lt_length_of_getD_some {α : Type} {l : List (Option α)} {k : ℕ} {v : α}
    (h : l.getD k none = some v) : k < l.length := by
  by_contra hk
  push_neg at hk
  rw [getD_of_ge l none hk] at h
  exact Option.noConfusion h

theorem getD_set_self {α : Type} (l : List α) (d v : α) {k : ℕ} (h : k < l.length) :
    (l.set k v).getD k d = v := by
  simp [List.getD_eq_getElem?_getD, List.getElem?_set_self h]

theorem getD_set_ne {α : Type} (l : List α) (d v : α) {k j : ℕ} (h : k ≠ j) :
    (l.set k v).getD j d = l.getD j d := by
  simp [List.getD_eq_getElem?_getD, List.getElem?_set_ne h]

theorem getD_set_of_ge {α : Type} (l : List α) (d v : α) {k : ℕ} (h : l.length ≤ k) :
    (l.set k v).getD k d = l.getD k d := by
  rw [getD_of_ge _ _ h, getD_of_ge]
  simpa using h

theorem getD_map_range {α : Type} (f : ℕ → α) (d : α) {n k : ℕ} (h : k < n) :
    (((List.range n).map f).getD k d) = f k := by
  simp [List.getD_eq_getElem?_getD, List.getElem?_map, List.getElem?_range h]

theorem getD_mem {α : Type} (l : List α) (d : α) {k : ℕ} (h : k < l.length) :
    l.getD k d ∈ l := by
  rw [List.getD_eq_getElem?_getD, List.getElem?_eq_getElem h]
  exact List.getElem_mem h

/-- Sum-preserving description of `List.set`, in additive form. -/
theorem sum_map_set {α M : Type} [AddCommMonoid M] (f : α → M) :
    ∀ (l : List α) (k : ℕ) (v : α), k < l.length →
      ((l.set k v).map f).sum + f (l.getD k v) = (l.map f).sum + f v
  | [], k, v, h => by simp at h
  | a :: l, 0, v, _ => by
    simp [List.getD, add_comm, add_left_comm, add_assoc]
  | a :: l, k + 1, v, h => by
    have hk : k < l.length := by simpa using h
    have ih := sum_map_set f l k v hk
    simp only [List.set, List.map_cons, List.sum_cons, List.getD_cons_succ]
    rw [add_assoc, add_assoc, ih]

theorem sum_set_rat (u : List ℚ) (k : ℕ) (v : ℚ) (h : k < u.length) :
    (u.set k v).sum = u.sum - u.getD k 0 + v := by
  have := sum_map_set (id : ℚ → ℚ) u k v h
  simp only [List.map_id, id_eq] at this
  have hgd : u.getD k v = u.getD k 0 := by
    rw [List.getD_eq_getElem?_getD, List.getD_eq_getElem?_getD,
      List.getElem?_eq_getElem h]
    rfl
  rw [hgd] at this
  linarith

theorem mem_listAdd {l : List ℕ} {z x : ℕ} : x ∈ listAdd l z ↔ x ∈ l ∨ x = z := by
  unfold listAdd
  split
  · constructor
    · exact fun h => Or.inl h
    · rintro (h | rfl)
      · exact h
      · assumption
  · simp [List.mem_append]

theorem nodup_listAdd {l : List ℕ} (z : ℕ) (h : l.Nodup) : (listAdd l z).Nodup := by
  unfold listAdd
  split
  · exact h
  · rename_i hz
    simpa [List.nodup_append] using ⟨h, hz⟩

theorem mem_listUnion {l m : List ℕ} {x : ℕ} : x ∈ listUnion l m ↔ x ∈ l ∨ x ∈ m := by
  induction m generalizing l with
  | nil => simp [listUnion]
  | cons a m ih =>
    show x ∈ listUnion (listAdd l a) m ↔ _
    rw [ih, mem_listAdd]
    constructor
    · rintro ((h | rfl) | h)
      · exact Or.inl h
      · exact Or.inr (List.mem_cons_self _ _)
      · exact Or.inr (List.mem_cons_of_mem _ h)
    · rintro (h | h)
      · exact Or.inl (Or.inl h)
      · rcases List.mem_cons.mp h with rfl | h
        · exact Or.inl (Or.inr rfl)
        · exact Or.inr h

theorem nodup_listUnion {l m : List ℕ} (h : l.Nodup) : (listUnion l m).Nodup := by
  induction m generalizing l with
  | nil => exact h
  | cons a m ih => exact ih (nodup_listAdd a h)

/-! ### Enumeration of grid and triangle cells -/

/-- Position of the start of row `i` in a row-indexed flat enumeration. -/
def rowPos (len : ℕ → ℕ) (i : ℕ) : ℕ := ((List.range i).map len).sum

theorem rowPos_succ (len : ℕ → ℕ) (i : ℕ) : rowPos len (i + 1) = rowPos len i + len i := by
  simp [rowPos, List.range_succ]

theorem rowPos_mono (len : ℕ → ℕ) {i j : ℕ} (h : i ≤ j) : rowPos len i ≤ rowPos len j := by
  induction j with
  | zero => simpa using Nat.le_zero.mp h ▸ le_refl _
  | succ j ih =>
    rcases Nat.lt_or_ge i (j + 1) with hlt | hge
    · exact le_trans (ih (Nat.lt_succ_iff.mp hlt)) (by rw [rowPos_succ]; omega)
    · have : i = j + 1 := le_antisymm h hge
      subst this
      exact le_refl _

theorem rowPos_congr {f g : ℕ → ℕ} (h : ∀ a, f a = g a) (i : ℕ) :
    rowPos f i = rowPos g i := by
  unfold rowPos
  congr 1
  exact List.map_congr_left (fun a _ => h a)

theorem length_flatMap_range {α : Type} (f : ℕ → List α) (n : ℕ) :
    ((List.range n).flatMap f).length = rowPos (fun a => (f a).length) n := by
  rw [List.length_flatMap, rowPos]
  congr 1

theorem getElem?_flatMap_range {α : Type} (f : ℕ → List α) :
    ∀ {n i j : ℕ}, i < n → j < (f i).length →
      ((List.range n).flatMap f)[rowPos (fun a => (f a).length) i + j]? = (f i)[j]? := by
  intro n
  induction n with
  | zero => intro i j hi; omega
  | succ m ih =>
    intro i j hi hj
    rw [List.range_succ, List.flatMap_append]
    rcases Nat.lt_or_ge i m with him | him
    · have hidx : rowPos (fun a => (f a).length) i + j <
          ((List.range m).flatMap f).length := by
        rw [length_flatMap_range]
        have h1 : rowPos (fun a => (f a).length) i + j <
            rowPos (fun a => (f a).length) (i + 1) := by
          rw [rowPos_succ]; omega
        exact lt_of_lt_of_le h1 (rowPos_mono _ him)
      rw [List.getElem?_append, if_pos hidx]
      exact ih him hj
    · have hieq : i = m := by omega
      subst hieq
      have hlen : ((List.range i).flatMap f).length = rowPos (fun a => (f a).length) i :=
        length_flatMap_range f i
      rw [List.getElem?_append_right (by omega)]
      simp only [List.flatMap_cons, List.flatMap_nil, List.append_nil, hlen]
      congr 1
      omega

theorem rowPos_const (c : ℕ) : ∀ i, rowPos (fun _ => c) i = i * c := by
  intro i
  induction i with
  | zero => simp [rowPos]
  | succ i ih => rw [rowPos_succ, ih]; ring

theorem length_gridCells (r c : ℕ) : (gridCells r c).length = r * c := by
  rw [gridCells, length_flatMap_range]
  rw [rowPos_congr (g := fun _ => c) (fun a => by simp)]
  exact rowPos_const c r

theorem gridCells_getElem? {r c i j : ℕ} (hi : i < r) (hj : j < c) :
    (gridCells r c)[i * c + j]? = some (i, j) := by
  rw [gridCells]
  have h := getElem?_flatMap_range (fun i => (List.range c).map (fun j => (i, j)))
      (n := r) (i := i) (j := j) hi (by simpa using hj)
  rw [rowPos_congr (g := fun _ => c) (fun a => by simp)] at h
  rw [rowPos_const] at h
  rw [h, List.getElem?_map, List.getElem?_range hj]
  rfl

theorem mem_gridCells {r c : ℕ} {p : ℕ × ℕ} : p ∈ gridCells r c ↔ p.1 < r ∧ p.2 < c := by
  cases p with
  | mk a b =>
    simp only [gridCells, List.mem_flatMap, List.mem_map, List.mem_range]
    constructor
    · rintro ⟨i, hi, j, hj, h⟩
      cases h
      exact ⟨hi, hj⟩
    · rintro ⟨ha, hb⟩
      exact ⟨a, ha, b, hb, rfl⟩

theorem flat_lt {r c i j : ℕ} (hi : i < r) (hj : j < c) : i * c + j < r * c := by
  have h1 : i * c + j < (i + 1) * c := by
    have : (i + 1) * c = i * c + c := by ring
    omega
  exact lt_of_lt_of_le h1 (Nat.mul_le_mul_right c hi)

theorem flat_div {c i j : ℕ} (hj : j < c) : (i * c + j) / c = i := by
  have hc : 0 < c := by omega
  rw [add_comm, mul_comm, Nat.add_mul_div_left j i hc, Nat.div_eq_of_lt hj]
  omega

theorem flat_mod {c i j : ℕ} (hj : j < c) : (i * c + j) % c = j := by
  rw [add_comm, mul_comm, Nat.add_mul_mod_self_left, Nat.mod_eq_of_lt hj]

theorem range_filter_le {i n : ℕ} (h : i < n) :
    (List.range n).filter (fun j => decide (j ≤ i)) = List.range (i + 1) := by
  induction n with
  | zero => omega
  | succ m ih =>
    rw [List.range_succ, List.filter_append]
    rcases Nat.lt_or_ge i m with him | him
    · rw [ih him]
      have hmi : ¬ (m ≤ i) := by omega
      have : (List.filter (fun j => decide (j ≤ i)) [m]) = [] := by simp [hmi]
      rw [this, List.append_nil]
    · have hieq : i = m := by omega
      subst hieq
      have h1 : (List.range i).filter (fun j => decide (j ≤ i)) = List.range i := by
        rw [List.filter_eq_self]
        intro a ha
        simp only [List.mem_range] at ha
        simp
        omega
      have h2 : (List.filter (fun j => decide (j ≤ i)) [i]) = [i] := by simp
      rw [h1, h2, ← List.range_succ]

theorem flatMap_congr_mem {α β : Type} {l : List α} {f g : α → List β}
    (h : ∀ a ∈ l, f a = g a) : l.flatMap f = l.flatMap g := by
  induction l with
  | nil => rfl
  | cons a l ih =>
    simp only [List.flatMap_cons]
    rw [h a (List.mem_cons_self a l), ih (fun x hx => h x (List.mem_cons_of_mem a hx))]

theorem triCells_eq_rows (n : ℕ) :
    triCells n = (List.range n).flatMap (fun i => (List.range (i + 1)).map (fun j => (i, j))) := by
  rw [triCells, gridCells, List.filter_flatMap]
  apply flatMap_congr_mem
  intro i hi
  rw [List.mem_range] at hi
  rw [List.filter_map]
  have hcomp : ((fun p : ℕ × ℕ => decide (p.2 ≤ p.1)) ∘ fun j => (i, j))
      = fun j => decide (j ≤ i) := by
    funext j
    rfl
  rw [hcomp, range_filter_le hi]

theorem tri_succ (i : ℕ) : (i + 1) * (i + 2) / 2 = i * (i + 1) / 2 + (i + 1) := by
  have h : (i + 1) * (i + 2) = i * (i + 1) + 2 * (i + 1) := by ring
  rw [h, Nat.add_mul_div_left _ _ (by omega : 0 < 2)]

theorem rowPos_tri : ∀ i, rowPos (fun a => a + 1) i = i * (i + 1) / 2 := by
  intro i
  induction i with
  | zero => simp [rowPos]
  | succ i ih => rw [rowPos_succ, ih, ← tri_succ]

theorem length_triCells (n : ℕ) : (triCells n).length = n * (n + 1) / 2 := by
  rw [triCells_eq_rows, length_flatMap_range]
  rw [rowPos_congr (g := fun a => a + 1) (fun a => by simp)]
  exact rowPos_tri n

theorem triCells_getElem? {n i j : ℕ} (hj : j ≤ i) (hi : i < n) :
    (triCells n)[triIdx (i, j)]? = some (i, j) := by
  rw [triCells_eq_rows]
  have h := getElem?_flatMap_range (fun i => (List.range (i + 1)).map (fun j => (i, j)))
      (n := n) (i := i) (j := j) hi (by simp; omega)
  rw [rowPos_congr (g := fun a => a + 1) (fun a => by simp)] at h
  rw [rowPos_tri] at h
  have : triIdx (i, j) = i * (i + 1) / 2 + j := rfl
  rw [this, h, List.getElem?_map, List.getElem?_range (by omega)]
  rfl

theorem mem_triCells {n : ℕ} {p : ℕ × ℕ} : p ∈ triCells n ↔ p.1 < n ∧ p.2 ≤ p.1 := by
  rw [triCells, List.mem_filter]
  constructor
  · rintro ⟨hm, hp⟩
    have := mem_gridCells.mp hm
    simp at hp
    exact ⟨this.1, hp⟩
  · rintro ⟨h1, h2⟩
    refine ⟨mem_gridCells.mpr ⟨h1, by omega⟩, by simpa using h2⟩

theorem triIdx_lt {n i j : ℕ} (hj : j ≤ i) (hi : i < n) :
    triIdx (i, j) < n * (n + 1) / 2 := by
  have h := triCells_getElem? hj hi
  have := (List.getElem?_eq_some_iff.mp h).1
  rwa [length_triCells] at this

theorem exists_triIdx {n : ℕ} : ∀ {k : ℕ}, k < n * (n + 1) / 2 →
    ∃ i j, j ≤ i ∧ i < n ∧ k = triIdx (i, j) := by
  induction n with
  | zero => intro k hk; simp at hk
  | succ m ih =>
    intro k hk
    rcases Nat.lt_or_ge k (m * (m + 1) / 2) with hlt | hge
    · obtain ⟨i, j, h1, h2, h3⟩ := ih hlt
      exact ⟨i, j, h1, by omega, h3⟩
    · have hprod : (m + 1) * (m + 1 + 1) = (m + 1) * (m + 2) := by ring
      have hts := tri_succ m
      refine ⟨m, k - m * (m + 1) / 2, ?_, by omega, ?_⟩
      · omega
      · unfold triIdx
        simp only
        omega

theorem triIdx_inj {i j i' j' : ℕ} (hj : j ≤ i) (hj' : j' ≤ i')
    (h : triIdx (i, j) = triIdx (i', j')) : i = i' ∧ j = j' := by
  have hi : i < max i i' + 1 := by omega
  have hi' : i' < max i i' + 1 := by omega
  have h1 := triCells_getElem? hj hi
  have h2 := triCells_getElem? hj' hi'
  rw [h] at h1
  rw [h1] at h2
  cases h2
  exact ⟨rfl, rfl⟩

/-! ### Neighbour-function lemmas -/

theorem mem_ite_single {c : Prop} [Decidable c] {x y : ℕ × ℕ} :
    x ∈ (if c then [y] else ([] : List (ℕ × ℕ))) ↔ c ∧ x = y := by
  split
  · simp_all
  · simp_all

theorem mem_pixel_neighs {i j w h : ℕ} {q : ℕ × ℕ} :
    q ∈ pixel_neighs i j w h ↔
      (0 < i ∧ q = (i - 1, j)) ∨ (i < w - 1 ∧ q = (i + 1, j)) ∨
      (0 < j ∧ q = (i, j - 1)) ∨ (j < h - 1 ∧ q = (i, j + 1)) := by
  unfold pixel_neighs
  simp only [List.mem_append, mem_ite_single]
  tauto

theorem mem_pixel_neighs_triangular {i j n : ℕ} {q : ℕ × ℕ} :
    q ∈ pixel_neighs_triangular i j n ↔
      ((0 < i ∧ j ≤ i - 1) ∧ q = (i - 1, j)) ∨
      ((i < n - 1 ∧ j ≤ i + 1) ∧ q = (i + 1, j)) ∨
      ((0 < j ∧ j - 1 ≤ i) ∧ q = (i, j - 1)) ∨
      ((j < n - 1 ∧ j + 1 ≤ i) ∧ q = (i, j + 1)) := by
  unfold pixel_neighs_triangular
  simp only [List.mem_append, mem_ite_single]
  tauto

theorem pixel_neighs_bounds {i j w h : ℕ} (hi : i < w) (hj : j < h) {q : ℕ × ℕ}
    (hq : q ∈ pixel_neighs i j w h) : q.1 < w ∧ q.2 < h := by
  rcases mem_pixel_neighs.mp hq with ⟨h1, rfl⟩ | ⟨h1, rfl⟩ | ⟨h1, rfl⟩ | ⟨h1, rfl⟩ <;>
    exact ⟨by omega, by omega⟩

theorem pixel_neighs_ne {i j w h : ℕ} {q : ℕ × ℕ}
    (hq : q ∈ pixel_neighs i j w h) : q ≠ (i, j) := by
  rcases mem_pixel_neighs.mp hq with ⟨h1, rfl⟩ | ⟨h1, rfl⟩ | ⟨h1, rfl⟩ | ⟨h1, rfl⟩ <;>
    · simp only [ne_eq, Prod.mk.injEq, not_and]
      omega

theorem pixel_neighs_symm {i j w h : ℕ} (hi : i < w) (hj : j < h) {q : ℕ × ℕ}
    (hq : q ∈ pixel_neighs i j w h) : (i, j) ∈ pixel_neighs q.1 q.2 w h := by
  rcases mem_pixel_neighs.mp hq with ⟨h1, rfl⟩ | ⟨h1, rfl⟩ | ⟨h1, rfl⟩ | ⟨h1, rfl⟩ <;>
    rw [mem_pixel_neighs] <;> dsimp only <;> simp only [Prod.mk.injEq]
  · exact Or.inr (Or.inl ⟨by omega, by omega, trivial⟩)
  · exact Or.inl ⟨by omega, by omega, trivial⟩
  · exact Or.inr (Or.inr (Or.inr ⟨by omega, trivial, by omega⟩))
  · exact Or.inr (Or.inr (Or.inl ⟨by omega, trivial, by omega⟩))

theorem pixel_neighs_triangular_bounds {i j n : ℕ} (hj : j ≤ i) (hi : i < n)
    {q : ℕ × ℕ} (hq : q ∈ pixel_neighs_triangular i j n) : q.1 < n ∧ q.2 ≤ q.1 := by
  rcases mem_pixel_neighs_triangular.mp hq with ⟨h1, rfl⟩ | ⟨h1, rfl⟩ | ⟨h1, rfl⟩ | ⟨h1, rfl⟩ <;>
    exact ⟨by omega, by omega⟩

theorem pixel_neighs_triangular_ne {i j n : ℕ} {q : ℕ × ℕ}
    (hq : q ∈ pixel_neighs_triangular i j n) : q ≠ (i, j) := by
  rcases mem_pixel_neighs_triangular.mp hq with ⟨h1, rfl⟩ | ⟨h1, rfl⟩ | ⟨h1, rfl⟩ | ⟨h1, rfl⟩ <;>
    · simp only [ne_eq, Prod.mk.injEq, not_and]
      omega

theorem pixel_neighs_triangular_symm {i j n : ℕ} (hj : j ≤ i) (hi : i < n)
    {q : ℕ × ℕ} (hq : q ∈ pixel_neighs_triangular i j n) :
    (i, j) ∈ pixel_neighs_triangular q.1 q.2 n := by
  rcases mem_pixel_neighs_triangular.mp hq with ⟨h1, rfl⟩ | ⟨h1, rfl⟩ | ⟨h1, rfl⟩ | ⟨h1, rfl⟩ <;>
    rw [mem_pixel_neighs_triangular] <;> dsimp only <;> simp only [Prod.mk.injEq]
  · exact Or.inr (Or.inl ⟨⟨by omega, by omega⟩, by omega, trivial⟩)
  · exact Or.inl ⟨⟨by omega, by omega⟩, by omega, trivial⟩
  · exact Or.inr (Or.inr (Or.inr ⟨⟨by omega, by omega⟩, trivial, by omega⟩))
  · exact Or.inr (Or.inr (Or.inl ⟨⟨by omega, by omega⟩, trivial, by omega⟩))

/-! ### The initial state satisfies the invariant -/

theorem nodup_gridCells (r c : ℕ) : (gridCells r c).Nodup := by
  induction r with
  | zero => simp [gridCells]
  | succ m ih =>
    rw [gridCells, List.range_succ, List.flatMap_append]
    rw [List.nodup_append]
    refine ⟨ih, ?_, ?_⟩
    · simp only [List.flatMap_cons, List.flatMap_nil, List.append_nil]
      refine List.Nodup.map_on ?_ (List.nodup_range c)
      intro x _ y _ h
      simpa using h
    · intro a ha hb
      simp only [List.flatMap_cons, List.flatMap_nil, List.append_nil, List.mem_map,
        List.mem_range] at hb
      obtain ⟨j, _, rfl⟩ := hb
      have := mem_gridCells.mp ha
      omega

theorem nodup_triCells (n : ℕ) : (triCells n).Nodup :=
  (nodup_gridCells n n).filter _

theorem flat_inj {r c i j i' j' : ℕ} (hi : i < r) (hj : j < c) (hi' : i' < r) (hj' : j' < c)
    (h : i * c + j = i' * c + j') : i = i' ∧ j = j' := by
  have h1 := flat_div (i := i) hj
  have h2 := flat_div (i := i') hj'
  have h3 := flat_mod (i := i) hj
  have h4 := flat_mod (i := i') hj'
  rw [h] at h1 h3
  omega

theorem universeL_false_def (r c : ℕ) :
    universeL false r c = (gridCells r c).map (fun p => p.1 * c + p.2) := by
  simp [universeL]

theorem universeL_true_def (r c : ℕ) :
    universeL true r c = (triCells r).map (fun p => p.1 * r + p.2) := by
  simp [universeL]

theorem nodup_universeL (tri : Bool) (r c : ℕ) : (universeL tri r c).Nodup := by
  cases tri
  · rw [universeL_false_def]
    refine List.Nodup.map_on ?_ (nodup_gridCells r c)
    intro x hx y hy hxy
    have hbx := mem_gridCells.mp hx
    have hby := mem_gridCells.mp hy
    have h := flat_inj hbx.1 hbx.2 hby.1 hby.2 hxy
    exact Prod.ext h.1 h.2
  · rw [universeL_true_def]
    refine List.Nodup.map_on ?_ (nodup_triCells r)
    intro x hx y hy hxy
    have hbx := mem_triCells.mp hx
    have hby := mem_triCells.mp hy
    have h := flat_inj hbx.1 (by omega : x.2 < r) hby.1 (by omega : y.2 < r) hxy
    exact Prod.ext h.1 h.2

theorem mem_universeL_false {r c x : ℕ} :
    x ∈ universeL false r c ↔ ∃ i j, i < r ∧ j < c ∧ x = i * c + j := by
  rw [universeL_false_def]
  simp only [List.mem_map]
  constructor
  · rintro ⟨p, hp, rfl⟩
    have := mem_gridCells.mp hp
    exact ⟨p.1, p.2, this.1, this.2, rfl⟩
  · rintro ⟨i, j, hi, hj, rfl⟩
    exact ⟨(i, j), mem_gridCells.mpr ⟨hi, hj⟩, rfl⟩

theorem mem_universeL_true {r c x : ℕ} :
    x ∈ universeL true r c ↔ ∃ i j, j ≤ i ∧ i < r ∧ x = i * r + j := by
  rw [universeL_true_def]
  simp only [List.mem_map]
  constructor
  · rintro ⟨p, hp, rfl⟩
    have := mem_triCells.mp hp
    exact ⟨p.1, p.2, this.2, this.1, rfl⟩
  · rintro ⟨i, j, hj, hi, rfl⟩
    exact ⟨(i, j), mem_triCells.mpr ⟨hi, hj⟩, rfl⟩

theorem universeL_lt {tri : Bool} {r c x : ℕ} (h : x ∈ universeL tri r c) :
    x < r * (if tri then r else c) := by
  cases tri
  · obtain ⟨i, j, hi, hj, rfl⟩ := mem_universeL_false.mp h
    simpa using flat_lt hi hj
  · obtain ⟨i, j, hj, hi, rfl⟩ := mem_universeL_true.mp h
    simpa using flat_lt hi (by omega : j < r)

theorem sum_count_singletons {α β : Type} [DecidableEq α] (g : β → α) (x : α) (l : List β) :
    (l.map (fun p => List.count x [g p])).sum = List.count x (l.map g) := by
  induction l with
  | nil => simp
  | cons p l ih =>
    rw [List.map_cons, List.sum_cons, List.map_cons, List.count_cons, ih,
      List.count_cons, List.count_nil]
    omega

theorem sum_map_ne_zero {α : Type} {f : α → ℕ} {l : List α} (h : (l.map f).sum ≠ 0) :
    ∃ a ∈ l, f a ≠ 0 := by
  induction l with
  | nil => simp at h
  | cons a l ih =>
    simp only [List.map_cons, List.sum_cons] at h
    by_cases ha : f a = 0
    · rw [ha] at h
      simp only [Nat.zero_add] at h
      obtain ⟨b, hb, hfb⟩ := ih h
      exact ⟨b, List.mem_cons_of_mem a hb, hfb⟩
    · exact ⟨a, List.mem_cons_self a l, ha⟩

theorem sinv_init_of (tri : Bool) (r c : ℕ) (cells : List (ℕ × ℕ))
    (flatF idxF : ℕ × ℕ → ℕ) (neighF : ℕ × ℕ → List (ℕ × ℕ))
    (hpix : (initState tri r c).pixels = cells.map (fun p => some [flatF p]))
    (hnei : (initState tri r c).neighs =
      cells.map (fun p => some (((neighF p).map idxF).dedup)))
    (huniv : universeL tri r c = cells.map flatF)
    (hidx : ∀ p ∈ cells, cells[idxF p]? = some p)
    (hsym : ∀ p ∈ cells, ∀ q ∈ neighF p, q ∈ cells ∧ q ≠ p ∧ p ∈ neighF q)
    (hnd : (cells.map flatF).Nodup)
    (hAdj : ∀ x y, Adj tri r c x y → ∀ p ∈ cells, x = flatF p →
      ∃ q ∈ neighF p, y = flatF q) :
    SInv tri r c (initState tri r c) := by
  have cellsNd : cells.Nodup := List.Nodup.of_map flatF hnd
  have idxLt : ∀ p ∈ cells, idxF p < cells.length := by
    intro p hp
    exact (List.getElem?_eq_some_iff.mp (hidx p hp)).1
  have idxInj : ∀ p ∈ cells, ∀ q ∈ cells, idxF p = idxF q → p = q := by
    intro p hp q hq h
    have h1 := hidx p hp
    have h2 := hidx q hq
    rw [h, h2] at h1
    exact (Option.some.injEq _ _).mp h1.symm
  have getDmap : ∀ (g : ℕ × ℕ → Option (List ℕ)) (p : ℕ × ℕ), p ∈ cells →
      (cells.map g).getD (idxF p) none = g p := by
    intro g p hp
    rw [List.getD_eq_getElem?_getD, List.getElem?_map, hidx p hp]
    rfl
  have getDinv : ∀ (g : ℕ × ℕ → Option (List ℕ)) (k : ℕ) (v : List ℕ),
      (cells.map g).getD k none = some v → ∃ p ∈ cells, k = idxF p ∧ g p = some v := by
    intro g k v hv
    have hk : k < cells.length := by
      have := lt_length_of_getD_some hv
      simpa using this
    rcases hp : cells[k]? with _ | p
    · rw [List.getElem?_eq_none_iff] at hp
      omega
    · have hpc : p ∈ cells := List.getElem?_mem hp
      have heq : k = idxF p := by
        refine List.getElem?_inj hk cellsNd ?_
        rw [hp, hidx p hpc]
      refine ⟨p, hpc, heq, ?_⟩
      rw [List.getD_eq_getElem?_getD, List.getElem?_map, hp] at hv
      exact hv
  constructor
  · -- lenP
    rfl
  · -- lenN
    rw [hpix, hnei, List.length_map, List.length_map]
  · -- owners
    intro x hx
    rw [huniv] at hx
    show ((initState tri r c).pixels.map _).sum = 1
    rw [hpix, List.map_map]
    have hcomp : ((fun op => match op with | none => 0 | some l => l.count x) ∘
        (fun p => some [flatF p])) = fun p => List.count x [flatF p] := by
      funext p
      rfl
    rw [hcomp, sum_count_singletons]
    exact List.count_eq_one_of_mem hnd hx
  · -- membU
    intro i l hl x hx
    rw [hpix] at hl
    obtain ⟨p, hp, _, hgp⟩ := getDinv _ i l hl
    have : l = [flatF p] := (Option.some.inj hgp).symm
    subst this
    have : x = flatF p := by simpa using hx
    rw [huniv, this]
    exact List.mem_map_of_mem flatF hp
  · -- membNE
    intro i l hl
    rw [hpix] at hl
    obtain ⟨p, hp, _, hgp⟩ := getDinv _ i l hl
    have : l = [flatF p] := (Option.some.inj hgp).symm
    subst this
    simp
  · -- aliveIff
    intro i
    rw [hpix, hnei]
    rcases hp : cells[i]? with _ | p
    · have hk : cells.length ≤ i := List.getElem?_eq_none_iff.mp hp
      rw [getD_of_ge _ _ (by simpa using hk), getD_of_ge _ _ (by simpa using hk)]
    · rw [List.getD_eq_getElem?_getD, List.getElem?_map, hp,
        List.getD_eq_getElem?_getD, List.getElem?_map, hp]
      simp
  · -- neighNodup
    intro i s hs
    rw [hnei] at hs
    obtain ⟨p, hp, _, hgp⟩ := getDinv _ i s hs
    have : s = ((neighF p).map idxF).dedup := (Option.some.inj hgp).symm
    subst this
    exact List.nodup_dedup _
  · -- neighOK
    intro i s hs z hz
    rw [hnei] at hs
    obtain ⟨p, hp, rfl, hgp⟩ := getDinv _ i s hs
    have hseq : s = ((neighF p).map idxF).dedup := (Option.some.inj hgp).symm
    subst hseq
    rw [List.mem_dedup, List.mem_map] at hz
    obtain ⟨q, hq, rfl⟩ := hz
    obtain ⟨hqc, hqp, hpq⟩ := hsym p hp q hq
    refine ⟨?_, ?_, ?_⟩
    · rw [hpix, List.length_map]
      exact idxLt q hqc
    · intro h
      exact hqp (idxInj q hqc p hp h)
    · refine ⟨((neighF q).map idxF).dedup, ?_, ?_⟩
      · rw [hnei]
        exact getDmap _ q hqc
      · rw [List.mem_dedup, List.mem_map]
        exact ⟨p, hpq, rfl⟩
  · -- adjClosed
    intro i l hl x hx y hadj
    rw [hpix] at hl
    obtain ⟨p, hp, rfl, hgp⟩ := getDinv _ i l hl
    have hleq : l = [flatF p] := (Option.some.inj hgp).symm
    subst hleq
    have hxp : x = flatF p := by simpa using hx
    obtain ⟨q, hq, rfl⟩ := hAdj x y hadj p hp hxp
    obtain ⟨hqc, _, _⟩ := hsym p hp q hq
    right
    refine ⟨((neighF p).map idxF).dedup, idxF q, [flatF q], ?_, ?_, ?_, ?_⟩
    · rw [hnei]
      exact getDmap _ p hp
    · rw [List.mem_dedup, List.mem_map]
      exact ⟨q, hq, rfl⟩
    · rw [hpix]
      exact getDmap _ q hqc
    · exact List.mem_cons_self _ _

theorem sinv_init (tri : Bool) (r c : ℕ) : SInv tri r c (initState tri r c) := by
  cases tri
  · refine sinv_init_of false r c (gridCells r c) (fun p => p.1 * c + p.2)
      (fun p => p.1 * c + p.2) (fun p => pixel_neighs p.1 p.2 r c)
      (by simp [initState]) (by simp [initState]) (universeL_false_def r c)
      ?_ ?_ ?_ ?_
    · intro p hp
      obtain ⟨h1, h2⟩ := mem_gridCells.mp hp
      have := gridCells_getElem? h1 h2
      simpa using this
    · intro p hp q hq
      obtain ⟨h1, h2⟩ := mem_gridCells.mp hp
      refine ⟨?_, pixel_neighs_ne hq, ?_⟩
      · have hb := pixel_neighs_bounds h1 h2 hq
        exact mem_gridCells.mpr hb
      · have := pixel_neighs_symm h1 h2 hq
        simpa using this
    · rw [← universeL_false_def]
      exact nodup_universeL false r c
    · intro x y hadj p hp hx
      simp only [Adj, Bool.false_eq_true, if_false] at hadj
      obtain ⟨i, j, hi, hj, hxe, q, hq, hy⟩ := hadj
      have hij : (i, j) ∈ gridCells r c := mem_gridCells.mpr ⟨hi, hj⟩
      have hpe : (i, j) = p := by
        refine List.inj_on_of_nodup_map (f := fun p => p.1 * c + p.2) ?_ hij hp ?_
        · rw [← universeL_false_def]
          exact nodup_universeL false r c
        · dsimp only
          dsimp only at hx
          omega
      subst hpe
      exact ⟨q, hq, hy⟩
  · refine sinv_init_of true r c (triCells r) (fun p => p.1 * r + p.2)
      triIdx (fun p => pixel_neighs_triangular p.1 p.2 r)
      (by simp [initState]) (by simp [initState]) (universeL_true_def r c)
      ?_ ?_ ?_ ?_
    · intro p hp
      obtain ⟨h1, h2⟩ := mem_triCells.mp hp
      have := triCells_getElem? h2 h1
      simpa using this
    · intro p hp q hq
      obtain ⟨h1, h2⟩ := mem_triCells.mp hp
      refine ⟨?_, pixel_neighs_triangular_ne hq, ?_⟩
      · have hb := pixel_neighs_triangular_bounds h2 h1 hq
        exact mem_triCells.mpr hb
      · have := pixel_neighs_triangular_symm h2 h1 hq
        simpa using this
    · rw [← universeL_true_def]
      exact nodup_universeL true r c
    · intro x y hadj p hp hx
      simp only [Adj, if_true] at hadj
      obtain ⟨i, j, hj, hi, hxe, q, hq, hy⟩ := hadj
      have hij : (i, j) ∈ triCells r := mem_triCells.mpr ⟨hi, hj⟩
      have hpe : (i, j) = p := by
        refine List.inj_on_of_nodup_map (f := fun p => p.1 * r + p.2) ?_ hij hp ?_
        · rw [← universeL_true_def]
          exact nodup_universeL true r c
        · dsimp only
          dsimp only at hx
          omega
      subst hpe
      exact ⟨q, hq, hy⟩

/-! ### Pointwise description of `mergeRegions` -/

theorem foldl_set_getD (g : List ℕ → List ℕ) :
    ∀ (zs : List ℕ) (ns : List (Option (List ℕ))), zs.Nodup →
      ((zs.foldl (fun a z => a.set z (some (g ((a.getD z none).getD [])))) ns).length
          = ns.length) ∧
      (∀ x, x ∉ zs →
        (zs.foldl (fun a z => a.set z (some (g ((a.getD z none).getD [])))) ns).getD x none
          = ns.getD x none) ∧
      (∀ x, x ∈ zs → x < ns.length →
        (zs.foldl (fun a z => a.set z (some (g ((a.getD z none).getD [])))) ns).getD x none
          = some (g ((ns.getD x none).getD []))) := by
  intro zs
  induction zs with
  | nil => exact fun ns _ => ⟨rfl, fun x _ => rfl, fun x hx => absurd hx (List.not_mem_nil x)⟩
  | cons z zs ih =>
    intro ns hnd
    have hznm : z ∉ zs := (List.nodup_cons.mp hnd).1
    have hnd' : zs.Nodup := (List.nodup_cons.mp hnd).2
    set ns1 := ns.set z (some (g ((ns.getD z none).getD []))) with hns1
    obtain ⟨ihlen, ihout, ihin⟩ := ih ns1 hnd'
    have hlen1 : ns1.length = ns.length := List.length_set ns z _
    refine ⟨?_, ?_, ?_⟩
    · rw [List.foldl_cons]
      rw [← hns1]
      rw [ihlen, hlen1]
    · intro x hx
      have hxz : x ≠ z := fun h => hx (h ▸ List.mem_cons_self z zs)
      have hxzs : x ∉ zs := fun h => hx (List.mem_cons_of_mem z h)
      rw [List.foldl_cons, ← hns1, ihout x hxzs]
      exact getD_set_ne ns none _ (Ne.symm hxz)
    · intro x hx hxlt
      rw [List.foldl_cons, ← hns1]
      rcases List.mem_cons.mp hx with rfl | hxzs
      · rw [ihout x hznm]
        exact getD_set_self ns none _ hxlt
      · have hxz : x ≠ z := fun h => hznm (h ▸ hxzs)
        rw [ihin x hxzs (by omega)]
        rw [getD_set_ne ns none _ (Ne.symm hxz)]

theorem merge_char {st : SState} {serp mn : ℕ} {lS lM nS nM : List ℕ}
    (hserp : st.pixels.getD serp none = some lS)
    (hmnp : st.pixels.getD mn none = some lM)
    (hns : st.neighs.getD serp none = some nS)
    (hnm : st.neighs.getD mn none = some nM)
    (hne : serp ≠ mn)
    (hnmNd : nM.Nodup)
    (hmnNotNM : mn ∉ nM) :
    (mergeRegions st serp mn).pixels.getD serp none = some (lS ++ lM) ∧
    (mergeRegions st serp mn).pixels.getD mn none = none ∧
    (∀ x, x ≠ serp → x ≠ mn →
      (mergeRegions st serp mn).pixels.getD x none = st.pixels.getD x none) ∧
    (mergeRegions st serp mn).pixels.length = st.pixels.length ∧
    (mergeRegions st serp mn).neighs.length = st.neighs.length ∧
    (mergeRegions st serp mn).neighs.getD serp none
      = some (listUnion (nS.erase mn) (nM.erase serp)) ∧
    (mergeRegions st serp mn).neighs.getD mn none = none ∧
    (∀ z, z ∈ nM.erase serp → z < st.neighs.length →
      (mergeRegions st serp mn).neighs.getD z none
        = some (listAdd (((st.neighs.getD z none).getD []).erase mn) serp)) ∧
    (∀ x, x ≠ serp → x ≠ mn → x ∉ nM.erase serp →
      (mergeRegions st serp mn).neighs.getD x none = st.neighs.getD x none) := by
  have hserpLt : serp < st.pixels.length := lt_length_of_getD_some hserp
  have hserpLtN : serp < st.neighs.length := lt_length_of_getD_some hns
  have hdef : mergeRegions st serp mn =
      { pixels := (st.pixels.set serp (some (lS ++ lM))).set mn none
        neighs := ((nM.erase serp).foldl
          (fun a z => a.set z (some (listAdd (((a.getD z none).getD []).erase mn) serp)))
          (st.neighs.set serp (some (listUnion (nS.erase mn) (nM.erase serp))))).set mn none } := by
    unfold mergeRegions
    rw [hserp, hmnp, hns, hnm]
    rfl
  have hndE : (nM.erase serp).Nodup := hnmNd.erase serp
  have hserpNotE : serp ∉ nM.erase serp := by
    intro h
    exact ((hnmNd.mem_erase_iff.mp h).1) rfl
  have hmnNotE : mn ∉ nM.erase serp := fun h => hmnNotNM (List.mem_of_mem_erase h)
  obtain ⟨hflen, hfout, hfin⟩ := foldl_set_getD (fun l => listAdd (l.erase mn) serp)
    (nM.erase serp) (st.neighs.set serp (some (listUnion (nS.erase mn) (nM.erase serp))))
    hndE
  refine ⟨?_, ?_, ?_, ?_, ?_, ?_, ?_, ?_, ?_⟩
  · rw [hdef]
    show ((st.pixels.set serp (some (lS ++ lM))).set mn none).getD serp none = _
    rw [getD_set_ne _ none none (Ne.symm hne)]
    exact getD_set_self st.pixels none _ hserpLt
  · rw [hdef]
    show ((st.pixels.set serp (some (lS ++ lM))).set mn none).getD mn none = none
    rcases Nat.lt_or_ge mn (st.pixels.length) with hlt | hge
    · exact getD_set_self _ none none (by simpa using hlt)
    · rw [getD_of_ge]
      simpa using hge
  · intro x hxs hxm
    rw [hdef]
    show ((st.pixels.set serp (some (lS ++ lM))).set mn none).getD x none = _
    rw [getD_set_ne _ none none (Ne.symm hxm), getD_set_ne _ none _ (Ne.symm hxs)]
  · rw [hdef]
    show ((st.pixels.set serp (some (lS ++ lM))).set mn none).length = _
    rw [List.length_set, List.length_set]
  · rw [hdef]
    dsimp only
    rw [List.length_set, hflen, List.length_set]
  · rw [hdef]
    dsimp only
    rw [getD_set_ne _ none none (Ne.symm hne), hfout serp hserpNotE]
    exact getD_set_self st.neighs none _ hserpLtN
  · rw [hdef]
    dsimp only
    rcases Nat.lt_or_ge mn st.neighs.length with hlt | hge
    · refine getD_set_self _ none none ?_
      rw [hflen, List.length_set]
      exact hlt
    · rw [getD_of_ge]
      rw [List.length_set, hflen, List.length_set]
      exact hge
  · intro z hz hzlt
    have hzs : z ≠ serp := fun h => hserpNotE (h ▸ hz)
    have hzm : z ≠ mn := fun h => hmnNotE (h ▸ hz)
    rw [hdef]
    dsimp only
    rw [getD_set_ne _ none none (Ne.symm hzm)]
    rw [hfin z hz (by rw [List.length_set]; exact hzlt)]
    rw [getD_set_ne st.neighs none _ (Ne.symm hzs)]
  · intro x hxs hxm hxe
    rw [hdef]
    dsimp only
    rw [getD_set_ne _ none none (Ne.symm hxm), hfout x hxe,
      getD_set_ne st.neighs none _ (Ne.symm hxs)]


theorem getD_eq_getD {α : Type} (l : List α) (d d' : α) {k : ℕ} (h : k < l.length) :
    l.getD k d = l.getD k d' := by
  rw [List.getD_eq_getElem?_getD, List.getD_eq_getElem?_getD, List.getElem?_eq_getElem h]
  rfl

/-- `ownersCount` through an `Option.getD` view of the member lists. -/
theorem ownersCount_eq (st : SState) (x : ℕ) :
    ownersCount st x = (st.pixels.map (fun op => (op.getD []).count x)).sum := by
  unfold ownersCount
  congr 1
  apply List.map_congr_left
  intro op _
  cases op <;> rfl

/-- Counting owners is unchanged by a merge: the victim's members move to the
absorbing region. -/
theorem ownersCount_merge {st : SState} {serp mn : ℕ} {lS lM nS nM : List ℕ}
    (hserp : st.pixels.getD serp none = some lS)
    (hmnp : st.pixels.getD mn none = some lM)
    (hns : st.neighs.getD serp none = some nS)
    (hnm : st.neighs.getD mn none = some nM)
    (hne : serp ≠ mn)
    (x : ℕ) :
    ownersCount (mergeRegions st serp mn) x = ownersCount st x := by
  have hserpLt : serp < st.pixels.length := lt_length_of_getD_some hserp
  have hmnLt : mn < st.pixels.length := lt_length_of_getD_some hmnp
  have hdefP : (mergeRegions st serp mn).pixels
      = (st.pixels.set serp (some (lS ++ lM))).set mn none := by
    unfold mergeRegions
    rw [hserp, hmnp, hns, hnm]
    rfl
  have h1 := sum_map_set (fun op : Option (List ℕ) => (op.getD []).count x)
    st.pixels serp (some (lS ++ lM)) hserpLt
  have h2 := sum_map_set (fun op : Option (List ℕ) => (op.getD []).count x)
    (st.pixels.set serp (some (lS ++ lM))) mn none
    (by rw [List.length_set]; exact hmnLt)
  have hg1 : st.pixels.getD serp (some (lS ++ lM)) = some lS := by
    rw [getD_eq_getD st.pixels _ none hserpLt]
    exact hserp
  have hg2 : (st.pixels.set serp (some (lS ++ lM))).getD mn none = some lM := by
    rw [getD_set_ne _ none _ hne]
    exact hmnp
  rw [hg1] at h1
  rw [hg2] at h2
  simp only [Option.getD_some, Option.getD_none, List.count_nil] at h1 h2
  rw [List.count_append] at h1
  rw [ownersCount_eq, ownersCount_eq, hdefP]
  omega

/-- A merge kills exactly one live region. -/
theorem aliveCount_merge {st : SState} {serp mn : ℕ} {lS lM nS nM : List ℕ}
    (hserp : st.pixels.getD serp none = some lS)
    (hmnp : st.pixels.getD mn none = some lM)
    (hns : st.neighs.getD serp none = some nS)
    (hnm : st.neighs.getD mn none = some nM)
    (hne : serp ≠ mn) :
    aliveCount (mergeRegions st serp mn) + 1 = aliveCount st := by
  have hserpLt : serp < st.pixels.length := lt_length_of_getD_some hserp
  have hmnLt : mn < st.pixels.length := lt_length_of_getD_some hmnp
  have hdefP : (mergeRegions st serp mn).pixels
      = (st.pixels.set serp (some (lS ++ lM))).set mn none := by
    unfold mergeRegions
    rw [hserp, hmnp, hns, hnm]
    rfl
  have h1 := sum_map_set (fun op : Option (List ℕ) => if op.isSome then 1 else 0)
    st.pixels serp (some (lS ++ lM)) hserpLt
  have h2 := sum_map_set (fun op : Option (List ℕ) => if op.isSome then 1 else 0)
    (st.pixels.set serp (some (lS ++ lM))) mn none
    (by rw [List.length_set]; exact hmnLt)
  have hg1 : st.pixels.getD serp (some (lS ++ lM)) = some lS := by
    rw [getD_eq_getD st.pixels _ none hserpLt]
    exact hserp
  have hg2 : (st.pixels.set serp (some (lS ++ lM))).getD mn none = some lM := by
    rw [getD_set_ne _ none _ hne]
    exact hmnp
  rw [hg1] at h1
  rw [hg2] at h2
  simp at h1 h2
  unfold aliveCount
  rw [hdefP]
  simp
  omega


/-- The data-structure invariant is preserved by a legal merge (the chosen
victim is drawn from a live region's neighbour set). -/
theorem sinv_merge {tri : Bool} {r c : ℕ} {st : SState} {serp mn : ℕ} {lS nS : List ℕ}
    (hInv : SInv tri r c st)
    (hserp : st.pixels.getD serp none = some lS)
    (hns : st.neighs.getD serp none = some nS)
    (hmn : mn ∈ nS) :
    SInv tri r c (mergeRegions st serp mn) := by
  obtain ⟨hmnLt, hmnNe, nM, hnm, hserpInNM⟩ := hInv.neighOK serp nS hns mn hmn
  have hmnpS : (st.pixels.getD mn none).isSome := by
    rw [hInv.aliveIff mn, hnm]
    rfl
  obtain ⟨lM, hmnp⟩ := Option.isSome_iff_exists.mp hmnpS
  have hne : serp ≠ mn := fun h => hmnNe h.symm
  have hnsNd : nS.Nodup := hInv.neighNodup serp nS hns
  have hnmNd : nM.Nodup := hInv.neighNodup mn nM hnm
  have hmnNotNM : mn ∉ nM := fun h => ((hInv.neighOK mn nM hnm mn h).2.1) rfl
  obtain ⟨cPs, cPm, cPo, cPlen, cNlen, cNs, cNm, cNr, cNo⟩ :=
    merge_char hserp hmnp hns hnm hne hnmNd hmnNotNM
  have hserpLt : serp < st.pixels.length := lt_length_of_getD_some hserp
  constructor
  · rw [cPlen]
    exact hInv.lenP
  · rw [cNlen, cPlen, hInv.lenN]
  · intro x hx
    rw [ownersCount_merge hserp hmnp hns hnm hne x]
    exact hInv.owners x hx
  · -- membU
    intro i l hl x hx
    by_cases hiS : serp = i
    · subst hiS
      rw [cPs] at hl
      obtain rfl := (Option.some.inj hl).symm
      rcases List.mem_append.mp hx with hxS | hxM
      · exact hInv.membU serp lS hserp x hxS
      · exact hInv.membU mn lM hmnp x hxM
    · by_cases hiM : i = mn
      · subst hiM
        rw [cPm] at hl
        exact absurd hl (by simp)
      · rw [cPo i (Ne.symm hiS) hiM] at hl
        exact hInv.membU i l hl x hx
  · -- membNE
    intro i l hl
    by_cases hiS : serp = i
    · subst hiS
      rw [cPs] at hl
      obtain rfl := (Option.some.inj hl).symm
      intro h
      exact hInv.membNE serp lS hserp (List.append_eq_nil.mp h).1
    · by_cases hiM : i = mn
      · subst hiM
        rw [cPm] at hl
        exact absurd hl (by simp)
      · rw [cPo i (Ne.symm hiS) hiM] at hl
        exact hInv.membNE i l hl
  · -- aliveIff
    intro i
    by_cases hiS : serp = i
    · subst hiS
      rw [cPs, cNs]
      simp
    · by_cases hiM : i = mn
      · subst hiM
        rw [cPm, cNm]
      · by_cases hiR : i ∈ nM.erase serp
        · have hiNM : i ∈ nM := List.mem_of_mem_erase hiR
          obtain ⟨hiLt, hiNeMn, si, hsi, hmnInSi⟩ := hInv.neighOK mn nM hnm i hiNM
          have hiAlive : (st.pixels.getD i none).isSome := by
            rw [hInv.aliveIff i, hsi]
            rfl
          have hnew := cNr i hiR (by rw [hInv.lenN]; exact hiLt)
          rw [cPo i (Ne.symm hiS) hiM, hnew]
          simp only [Option.isSome_some, iff_true]
          exact hiAlive
        · rw [cPo i (Ne.symm hiS) hiM, cNo i (Ne.symm hiS) hiM hiR]
          exact hInv.aliveIff i
  · -- neighNodup
    intro i s hs
    by_cases hiS : serp = i
    · subst hiS
      rw [cNs] at hs
      obtain rfl := (Option.some.inj hs).symm
      exact nodup_listUnion (hnsNd.erase mn)
    · by_cases hiM : i = mn
      · subst hiM
        rw [cNm] at hs
        exact absurd hs (by simp)
      · by_cases hiR : i ∈ nM.erase serp
        · have hiNM : i ∈ nM := List.mem_of_mem_erase hiR
          obtain ⟨hiLt, hiNeMn, si, hsi, hmnInSi⟩ := hInv.neighOK mn nM hnm i hiNM
          have hnew := cNr i hiR (by rw [hInv.lenN]; exact hiLt)
          rw [hsi] at hnew
          simp only [Option.getD_some] at hnew
          rw [hnew] at hs
          obtain rfl := (Option.some.inj hs).symm
          exact nodup_listAdd serp ((hInv.neighNodup i si hsi).erase mn)
        · rw [cNo i (Ne.symm hiS) hiM hiR] at hs
          exact hInv.neighNodup i s hs
  · -- neighOK
    intro i s hs z hz
    by_cases hiS : serp = i
    · subst hiS
      rw [cNs] at hs
      obtain rfl := (Option.some.inj hs).symm
      rcases mem_listUnion.mp hz with hzA | hzB
      · have hzNS : z ∈ nS := List.mem_of_mem_erase hzA
        have hzNeMn : z ≠ mn := (hnsNd.mem_erase_iff.mp hzA).1
        obtain ⟨hzLt, hzNeSerp, sz, hsz, hserpInSz⟩ := hInv.neighOK serp nS hns z hzNS
        refine ⟨by rw [cPlen]; exact hzLt, hzNeSerp, ?_⟩
        by_cases hzR : z ∈ nM.erase serp
        · have hnew := cNr z hzR (by rw [hInv.lenN]; exact hzLt)
          rw [hsz] at hnew
          simp only [Option.getD_some] at hnew
          exact ⟨listAdd (sz.erase mn) serp, hnew, mem_listAdd.mpr (Or.inr rfl)⟩
        · refine ⟨sz, ?_, hserpInSz⟩
          rw [cNo z hzNeSerp hzNeMn hzR]
          exact hsz
      · have hzNM : z ∈ nM := List.mem_of_mem_erase hzB
        have hzNeSerp : z ≠ serp := (hnmNd.mem_erase_iff.mp hzB).1
        obtain ⟨hzLt, hzNeMn, sz, hsz, hmnInSz⟩ := hInv.neighOK mn nM hnm z hzNM
        refine ⟨by rw [cPlen]; exact hzLt, hzNeSerp, ?_⟩
        have hnew := cNr z hzB (by rw [hInv.lenN]; exact hzLt)
        rw [hsz] at hnew
        simp only [Option.getD_some] at hnew
        exact ⟨listAdd (sz.erase mn) serp, hnew, mem_listAdd.mpr (Or.inr rfl)⟩
    · by_cases hiM : i = mn
      · subst hiM
        rw [cNm] at hs
        exact absurd hs (by simp)
      · by_cases hiR : i ∈ nM.erase serp
        · -- rewired region
          have hiNM : i ∈ nM := List.mem_of_mem_erase hiR
          obtain ⟨hiLt, hiNeMn, si, hsi, hmnInSi⟩ := hInv.neighOK mn nM hnm i hiNM
          have hnew := cNr i hiR (by rw [hInv.lenN]; exact hiLt)
          rw [hsi] at hnew
          simp only [Option.getD_some] at hnew
          rw [hnew] at hs
          obtain rfl := (Option.some.inj hs).symm
          rcases mem_listAdd.mp hz with hzE | hzSerp
          · have hzSi : z ∈ si := List.mem_of_mem_erase hzE
            have hsiNd : si.Nodup := hInv.neighNodup i si hsi
            have hzNeMn : z ≠ mn := (hsiNd.mem_erase_iff.mp hzE).1
            obtain ⟨hzLt, hzNeI, sz, hsz, hiInSz⟩ := hInv.neighOK i si hsi z hzSi
            refine ⟨by rw [cPlen]; exact hzLt, hzNeI, ?_⟩
            by_cases hzS : serp = z
            · subst hzS
              exact ⟨listUnion (nS.erase mn) (nM.erase serp), cNs,
                mem_listUnion.mpr (Or.inr hiR)⟩
            · by_cases hzR : z ∈ nM.erase serp
              · have hnew2 := cNr z hzR (by rw [hInv.lenN]; exact hzLt)
                rw [hsz] at hnew2
                simp only [Option.getD_some] at hnew2
                refine ⟨listAdd (sz.erase mn) serp, hnew2, mem_listAdd.mpr (Or.inl ?_)⟩
                exact (hInv.neighNodup z sz hsz).mem_erase_iff.mpr ⟨hiNeMn, hiInSz⟩
              · refine ⟨sz, ?_, hiInSz⟩
                rw [cNo z (Ne.symm hzS) hzNeMn hzR]
                exact hsz
          · -- z is the absorbing region, appended by the rewiring
            have hz2 : serp = z := hzSerp.symm
            subst hz2
            have hiNeSerp : serp ≠ i := hiS
            refine ⟨by rw [cPlen]; exact hserpLt, hiNeSerp, ?_⟩
            exact ⟨listUnion (nS.erase mn) (nM.erase serp), cNs,
              mem_listUnion.mpr (Or.inr hiR)⟩
        · -- untouched region
          rw [cNo i (Ne.symm hiS) hiM hiR] at hs
          obtain ⟨hzLt, hzNeI, sz, hsz, hiInSz⟩ := hInv.neighOK i s hs z hz
          refine ⟨by rw [cPlen]; exact hzLt, hzNeI, ?_⟩
          have hzNeMn : z ≠ mn := by
            intro h
            subst h
            rw [hnm] at hsz
            obtain rfl := Option.some.inj hsz
            exact hiR (hnmNd.mem_erase_iff.mpr ⟨Ne.symm hiS, hiInSz⟩)
          by_cases hzS : serp = z
          · subst hzS
            rw [hns] at hsz
            obtain rfl := Option.some.inj hsz
            refine ⟨listUnion (nS.erase mn) (nM.erase serp), cNs, ?_⟩
            exact mem_listUnion.mpr (Or.inl (hnsNd.mem_erase_iff.mpr ⟨hiM, hiInSz⟩))
          · by_cases hzR : z ∈ nM.erase serp
            · have hnew2 := cNr z hzR (by rw [hInv.lenN]; exact hzLt)
              rw [hsz] at hnew2
              simp only [Option.getD_some] at hnew2
              refine ⟨listAdd (sz.erase mn) serp, hnew2, mem_listAdd.mpr (Or.inl ?_)⟩
              exact (hInv.neighNodup z sz hsz).mem_erase_iff.mpr ⟨hiM, hiInSz⟩
            · refine ⟨sz, ?_, hiInSz⟩
              rw [cNo z (Ne.symm hzS) hzNeMn hzR]
              exact hsz
  · -- adjClosed
    intro i l hl x hx y hadj
    by_cases hiS : serp = i
    · subst hiS
      rw [cPs] at hl
      obtain rfl := (Option.some.inj hl).symm
      rcases List.mem_append.mp hx with hxS | hxM
      · rcases hInv.adjClosed serp lS hserp x hxS y hadj with hyIn |
          ⟨s0, j, lj, hs0, hjS0, hlj, hyLj⟩
        · exact Or.inl (List.mem_append.mpr (Or.inl hyIn))
        · rw [hns] at hs0
          obtain rfl := Option.some.inj hs0
          by_cases hjM : mn = j
          · subst hjM
            rw [hmnp] at hlj
            obtain rfl := (Option.some.inj hlj).symm
            exact Or.inl (List.mem_append.mpr (Or.inr hyLj))
          · right
            have hjNeSerp : j ≠ serp := (hInv.neighOK serp nS hns j hjS0).2.1
            refine ⟨listUnion (nS.erase mn) (nM.erase serp), j, lj, cNs,
              mem_listUnion.mpr (Or.inl (hnsNd.mem_erase_iff.mpr
                ⟨Ne.symm hjM, hjS0⟩)), ?_, hyLj⟩
            rw [cPo j hjNeSerp (Ne.symm hjM)]
            exact hlj
      · rcases hInv.adjClosed mn lM hmnp x hxM y hadj with hyIn |
          ⟨s0, j, lj, hs0, hjS0, hlj, hyLj⟩
        · exact Or.inl (List.mem_append.mpr (Or.inr hyIn))
        · rw [hnm] at hs0
          obtain rfl := Option.some.inj hs0
          by_cases hjS : serp = j
          · subst hjS
            rw [hserp] at hlj
            obtain rfl := (Option.some.inj hlj).symm
            exact Or.inl (List.mem_append.mpr (Or.inl hyLj))
          · right
            have hjNeMn : j ≠ mn := (hInv.neighOK mn nM hnm j hjS0).2.1
            refine ⟨listUnion (nS.erase mn) (nM.erase serp), j, lj, cNs,
              mem_listUnion.mpr (Or.inr (hnmNd.mem_erase_iff.mpr
                ⟨Ne.symm hjS, hjS0⟩)), ?_, hyLj⟩
            rw [cPo j (Ne.symm hjS) hjNeMn]
            exact hlj
    · by_cases hiM : i = mn
      · subst hiM
        rw [cPm] at hl
        exact absurd hl (by simp)
      · rw [cPo i (Ne.symm hiS) hiM] at hl
        rcases hInv.adjClosed i l hl x hx y hadj with hyIn |
          ⟨s0, j, lj, hs0, hjS0, hlj, hyLj⟩
        · exact Or.inl hyIn
        · right
          by_cases hjM : mn = j
          · subst hjM
            obtain ⟨_, hmnNeI, s', hs', hiInS'⟩ := hInv.neighOK i s0 hs0 mn hjS0
            rw [hnm] at hs'
            obtain rfl := Option.some.inj hs'
            have hiR : i ∈ nM.erase serp := hnmNd.mem_erase_iff.mpr ⟨Ne.symm hiS, hiInS'⟩
            rw [hmnp] at hlj
            obtain rfl := Option.some.inj hlj
            have hiLt2 : i < st.pixels.length := lt_length_of_getD_some hl
            have hnew := cNr i hiR (by rw [hInv.lenN]; exact hiLt2)
            rw [hs0] at hnew
            simp only [Option.getD_some] at hnew
            refine ⟨listAdd (s0.erase mn) serp, serp, lS ++ lM, hnew,
              mem_listAdd.mpr (Or.inr rfl), cPs, List.mem_append.mpr (Or.inr hyLj)⟩
          · by_cases hjS : serp = j
            · subst hjS
              rw [hserp] at hlj
              obtain rfl := Option.some.inj hlj
              by_cases hiR : i ∈ nM.erase serp
              · have hiLt2 : i < st.pixels.length := lt_length_of_getD_some hl
                have hnew := cNr i hiR (by rw [hInv.lenN]; exact hiLt2)
                rw [hs0] at hnew
                simp only [Option.getD_some] at hnew
                refine ⟨listAdd (s0.erase mn) serp, serp, lS ++ lM, hnew,
                  mem_listAdd.mpr (Or.inr rfl), cPs, List.mem_append.mpr (Or.inl hyLj)⟩
              · refine ⟨s0, serp, lS ++ lM, ?_, hjS0, cPs,
                  List.mem_append.mpr (Or.inl hyLj)⟩
                rw [cNo i (Ne.symm hiS) hiM hiR]
                exact hs0
            · by_cases hiR : i ∈ nM.erase serp
              · have hiLt2 : i < st.pixels.length := lt_length_of_getD_some hl
                have hnew := cNr i hiR (by rw [hInv.lenN]; exact hiLt2)
                rw [hs0] at hnew
                simp only [Option.getD_some] at hnew
                refine ⟨listAdd (s0.erase mn) serp, j, lj, hnew,
                  mem_listAdd.mpr (Or.inl ((hInv.neighNodup i s0 hs0).mem_erase_iff.mpr
                    ⟨Ne.symm hjM, hjS0⟩)), ?_, hyLj⟩
                rw [cPo j (Ne.symm hjS) (Ne.symm hjM)]
                exact hlj
              · refine ⟨s0, j, lj, ?_, hjS0, ?_, hyLj⟩
                · rw [cNo i (Ne.symm hiS) hiM hiR]
                  exact hs0
                · rw [cPo j (Ne.symm hjS) (Ne.symm hjM)]
                  exact hlj

/-! ### One visit of the pass -/

theorem visitStep_cases (U V : List ℚ) (T M : ℚ) (pick : ℕ) (st : SState) (serp : ℕ) :
    (visitStep U V T M pick st serp = .ok st ∧
      (st.pixels.getD serp none = none ∨
        ∃ mem, st.pixels.getD serp none = some mem ∧ ¬ regionPred U V T M mem)) ∨
    (∃ mem, st.pixels.getD serp none = some mem ∧ regionPred U V T M mem ∧
      (st.neighs.getD serp none).getD [] = [] ∧
      visitStep U V T M pick st serp = .error .indexError) ∨
    (∃ mem mnn, st.pixels.getD serp none = some mem ∧ regionPred U V T M mem ∧
      mnn ∈ (st.neighs.getD serp none).getD [] ∧
      visitStep U V T M pick st serp = .ok (mergeRegions st serp mnn)) := by
  unfold visitStep regionPred
  cases hpix : st.pixels.getD serp none with
  | none => exact Or.inl ⟨rfl, Or.inl rfl⟩
  | some mem =>
    dsimp only
    split_ifs with hc1 hc2
    · refine Or.inr (Or.inl ⟨mem, rfl, hc1, ?_, rfl⟩)
      exact List.length_eq_zero.mp hc2
    · refine Or.inr (Or.inr ⟨mem,
        ((st.neighs.getD serp none).getD []).getD
          (pick % ((st.neighs.getD serp none).getD []).length) 0, rfl, hc1, ?_, rfl⟩)
      refine getD_mem _ 0 ?_
      exact Nat.mod_lt pick (by omega)
    · exact Or.inl ⟨rfl, Or.inr ⟨mem, rfl, hc1⟩⟩

theorem getD_le_sum_map (f : Option (List ℕ) → ℕ) :
    ∀ (l : List (Option (List ℕ))) (i : ℕ), i < l.length →
      f (l.getD i none) ≤ (l.map f).sum := by
  intro l
  induction l with
  | nil => intro i hi; simp at hi
  | cons a l ih =>
    intro i hi
    cases i with
    | zero => simp [List.getD]
    | succ i =>
      rw [List.getD_cons_succ, List.map_cons, List.sum_cons]
      have := ih i (by simpa using hi)
      omega

theorem getD_two_le_sum_map (f : Option (List ℕ) → ℕ) :
    ∀ (l : List (Option (List ℕ))) (i j : ℕ), i ≠ j → i < l.length → j < l.length →
      f (l.getD i none) + f (l.getD j none) ≤ (l.map f).sum := by
  intro l
  induction l with
  | nil => intro i j _ hi; simp at hi
  | cons a l ih =>
    intro i j hij hi hj
    cases i with
    | zero =>
      cases j with
      | zero => exact absurd rfl hij
      | succ j =>
        rw [List.getD_cons_zero, List.getD_cons_succ, List.map_cons, List.sum_cons]
        have := getD_le_sum_map f l j (by simpa using hj)
        omega
    | succ i =>
      cases j with
      | zero =>
        rw [List.getD_cons_zero, List.getD_cons_succ, List.map_cons, List.sum_cons]
        have := getD_le_sum_map f l i (by simpa using hi)
        omega
      | succ j =>
        rw [List.getD_cons_succ, List.getD_cons_succ, List.map_cons, List.sum_cons]
        have := ih i j (by omega) (by simpa using hi) (by simpa using hj)
        omega

theorem isSome_lt_length {st : SState} {i : ℕ} (h : (st.pixels.getD i none).isSome) :
    i < st.pixels.length := by
  by_contra hc
  push_neg at hc
  rw [getD_of_ge _ _ hc] at h
  exact Bool.noConfusion h

theorem two_alive_le {st : SState} {i j : ℕ} (hij : i ≠ j)
    (hi : (st.pixels.getD i none).isSome) (hj : (st.pixels.getD j none).isSome) :
    2 ≤ aliveCount st := by
  have h := getD_two_le_sum_map (fun op => if op.isSome then 1 else 0) st.pixels i j hij
    (isSome_lt_length hi) (isSome_lt_length hj)
  simp only [hi, hj, if_true] at h
  unfold aliveCount
  omega

/-- A successful visit either leaves the state untouched or performs a merge
that kills exactly one (previously live) region; the invariant is preserved. -/
theorem visitStep_ok {tri : Bool} {r c : ℕ} {U V : List ℚ} {T M : ℚ} {pick : ℕ}
    {st st' : SState} {serp : ℕ} (hInv : SInv tri r c st)
    (h : visitStep U V T M pick st serp = .ok st') :
    SInv tri r c st' ∧
    (st' = st ∨
      (aliveCount st' + 1 = aliveCount st ∧
        (∃ w, (st'.pixels.getD w none).isSome) ∧
        ∃ mnn, (st.pixels.getD mnn none).isSome ∧ st'.pixels.getD mnn none = none ∧
          ∀ x, x ≠ mnn → ((st'.pixels.getD x none).isSome
            ↔ (st.pixels.getD x none).isSome))) := by
  rcases visitStep_cases U V T M pick st serp with ⟨hok, _⟩ |
    ⟨mem, hmem, hpred, hempty, herr⟩ | ⟨mem, mnn, hmem, hpred, hmnn, hmerge⟩
  · rw [h] at hok
    have : st' = st := by
      cases hok
      rfl
    subst this
    exact ⟨hInv, Or.inl rfl⟩
  · rw [herr] at h
    exact absurd h (by simp)
  · rw [hmerge] at h
    have hst' : st' = mergeRegions st serp mnn := by
      cases h
      rfl
    subst hst'
    -- the neighbour list is the real (some) set of a live region
    have hnsome : (st.neighs.getD serp none).isSome := by
      rw [← hInv.aliveIff serp, hmem]
      rfl
    obtain ⟨ns, hns⟩ := Option.isSome_iff_exists.mp hnsome
    have hmnn' : mnn ∈ ns := by
      rw [hns] at hmnn
      simpa using hmnn
    refine ⟨sinv_merge hInv hmem hns hmnn', Or.inr ?_⟩
    obtain ⟨hmnLt, hmnNe, nM, hnm, hserpInNM⟩ := hInv.neighOK serp ns hns mnn hmnn'
    have hmnpS : (st.pixels.getD mnn none).isSome := by
      rw [hInv.aliveIff mnn, hnm]
      rfl
    obtain ⟨lM, hmnp⟩ := Option.isSome_iff_exists.mp hmnpS
    have hne : serp ≠ mnn := fun hh => hmnNe hh.symm
    have hnmNd : nM.Nodup := hInv.neighNodup mnn nM hnm
    have hmnNotNM : mnn ∉ nM := fun hh => ((hInv.neighOK mnn nM hnm mnn hh).2.1) rfl
    obtain ⟨cPs, cPm, cPo, cPlen, cNlen, cNs, cNm, cNr, cNo⟩ :=
      merge_char hmem hmnp hns hnm hne hnmNd hmnNotNM
    refine ⟨aliveCount_merge hmem hmnp hns hnm hne, ⟨serp, by rw [cPs]; rfl⟩,
      mnn, ?_, cPm, ?_⟩
    · rw [hmnp]
      rfl
    · intro x hx
      by_cases hxs : serp = x
      · subst hxs
        rw [cPs, hmem]
        simp
      · rw [cPo x (Ne.symm hxs) hx]

/-- A visit that provably returns the unchanged state did not satisfy the
merge predicate (a live region with the predicate either merges, which
changes the state, or raises). -/
theorem visitStep_fix {tri : Bool} {r c : ℕ} {U V : List ℚ} {T M : ℚ} {pick : ℕ}
    {st : SState} {serp : ℕ} {mem : List ℕ} (hInv : SInv tri r c st)
    (h : visitStep U V T M pick st serp = .ok st)
    (hm : st.pixels.getD serp none = some mem) : ¬ regionPred U V T M mem := by
  rcases visitStep_cases U V T M pick st serp with ⟨_, hnone | ⟨mem', hm', hnp⟩⟩ |
    ⟨mem', hm', hpred, hempty, herr⟩ | ⟨mem', mnn, hm', hpred, hmnn, hmerge⟩
  · rw [hm] at hnone
    exact absurd hnone (by simp)
  · rw [hm] at hm'
    obtain rfl := Option.some.inj hm'
    exact hnp
  · rw [herr] at h
    exact absurd h (by simp)
  · rw [hmerge] at h
    have hsame : mergeRegions st serp mnn = st := by
      injection h
    -- a merge strictly decreases the live count, contradiction
    have hnsome : (st.neighs.getD serp none).isSome := by
      rw [← hInv.aliveIff serp, hm]
      rfl
    obtain ⟨ns, hns⟩ := Option.isSome_iff_exists.mp hnsome
    have hmnn' : mnn ∈ ns := by
      rw [hns] at hmnn
      simpa using hmnn
    obtain ⟨hmnLt, hmnNe, nM, hnm, hserpInNM⟩ := hInv.neighOK serp ns hns mnn hmnn'
    have hmnpS : (st.pixels.getD mnn none).isSome := by
      rw [hInv.aliveIff mnn, hnm]
      rfl
    obtain ⟨lM, hmnp⟩ := Option.isSome_iff_exists.mp hmnpS
    have hne : serp ≠ mnn := fun hh => hmnNe hh.symm
    have hcount := aliveCount_merge hm hmnp hns hnm hne
    rw [hsame] at hcount
    omega

/-! ### Pass-level lemmas -/

theorem visitStep_err {U V : List ℚ} {T M : ℚ} {pick : ℕ} {st : SState} {serp : ℕ}
    {e : SerpErr} (h : visitStep U V T M pick st serp = .error e) : e = .indexError := by
  rcases visitStep_cases U V T M pick st serp with ⟨hok, _⟩ |
    ⟨mem, _, _, _, herr⟩ | ⟨mem, mnn, _, _, _, hmerge⟩
  · rw [h] at hok
    exact absurd hok (by simp)
  · rw [h] at herr
    exact Except.error.inj herr
  · rw [h] at hmerge
    exact absurd hmerge (by simp)

theorem runPass_ok {tri : Bool} {r c : ℕ} {U V : List ℚ} {T M : ℚ} {pk : ℕ → ℕ} :
    ∀ (visit : List ℕ) (k : ℕ) {st st' : SState}, SInv tri r c st →
      runPass U V T M pk visit k st = .ok st' →
      SInv tri r c st' ∧ aliveCount st' ≤ aliveCount st ∧
      (st' = st ∨ aliveCount st' < aliveCount st) ∧
      (∀ x, st.pixels.getD x none = none → st'.pixels.getD x none = none) := by
  intro visit
  induction visit with
  | nil =>
    intro k st st' hInv h
    injection h with h
    subst h
    exact ⟨hInv, le_refl _, Or.inl rfl, fun x hx => hx⟩
  | cons serp rest ih =>
    intro k st st' hInv h
    unfold runPass at h
    cases hstep : visitStep U V T M (pk k) st serp with
    | error e =>
      rw [hstep] at h
      exact absurd h (by simp)
    | ok st1 =>
      rw [hstep] at h
      obtain ⟨hInv1, hdich1⟩ := visitStep_ok hInv hstep
      obtain ⟨hInv', hle, hdich, hdead⟩ := ih (k + 1) hInv1 h
      have hle1 : aliveCount st1 ≤ aliveCount st := by
        rcases hdich1 with rfl | ⟨hc, _⟩
        · exact le_refl _
        · omega
      refine ⟨hInv', le_trans hle hle1, ?_, ?_⟩
      · rcases hdich1 with rfl | ⟨hc, _⟩
        · exact hdich
        · right
          omega
      · intro x hx
        apply hdead
        rcases hdich1 with rfl | ⟨_, _, mnn, hmnAlive, hmnDead, hiff⟩
        · exact hx
        · have hxm : x ≠ mnn := by
            intro hh
            subst hh
            rw [hx] at hmnAlive
            exact Bool.noConfusion hmnAlive
          have := hiff x hxm
          rw [hx] at this
          simp only [Option.isSome_none, Bool.false_eq_true, iff_false] at this
          exact Option.not_isSome_iff_eq_none.mp this

theorem runPass_same {tri : Bool} {r c : ℕ} {U V : List ℚ} {T M : ℚ} {pk : ℕ → ℕ} :
    ∀ (visit : List ℕ) (k : ℕ) {st : SState}, SInv tri r c st →
      runPass U V T M pk visit k st = .ok st →
      ∀ serp ∈ visit, ∃ pick, visitStep U V T M pick st serp = .ok st := by
  intro visit
  induction visit with
  | nil =>
    intro k st _ _ serp hserp
    exact absurd hserp (List.not_mem_nil serp)
  | cons s0 rest ih =>
    intro k st hInv h serp hserp
    unfold runPass at h
    cases hstep : visitStep U V T M (pk k) st s0 with
    | error e =>
      rw [hstep] at h
      exact absurd h (by simp)
    | ok st1 =>
      rw [hstep] at h
      -- the tail returns to st, so st1 cannot have lost a region
      obtain ⟨hInv1, hdich1⟩ := visitStep_ok hInv hstep
      obtain ⟨_, hle, _, _⟩ := runPass_ok rest (k + 1) hInv1 h
      have hsame : st1 = st := by
        rcases hdich1 with rfl | ⟨hc, _⟩
        · rfl
        · omega
      subst hsame
      rcases List.mem_cons.mp hserp with rfl | hmem
      · exact ⟨pk k, hstep⟩
      · exact ih (k + 1) hInv h serp hmem

/-! ### Loop-level lemmas -/

theorem mergerLoop_ok {tri : Bool} {r c : ℕ} {U V : List ℚ} {T M : ℚ}
    {perms : ℕ → List ℕ} {picks : ℕ → ℕ → ℕ} :
    ∀ (fuel prev cur p : ℕ) {st stF : SState}, SInv tri r c st →
      mergerLoop U V T M perms picks fuel prev cur p st = .ok stF →
      SInv tri r c stF ∧ aliveCount stF ≤ aliveCount st := by
  intro fuel
  induction fuel with
  | zero =>
    intro prev cur p st stF _ h
    exact absurd h (by simp [mergerLoop])
  | succ f ih =>
    intro prev cur p st stF hInv h
    unfold mergerLoop at h
    by_cases hg : cur = prev
    · rw [if_pos hg] at h
      injection h with h
      subst h
      exact ⟨hInv, le_refl _⟩
    · rw [if_neg hg] at h
      cases hpass : runPass U V T M (picks p) (perms p) 0 st with
      | error e =>
        rw [hpass] at h
        exact absurd h (by simp)
      | ok st1 =>
        rw [hpass] at h
        obtain ⟨hInv1, hle1, _, _⟩ := runPass_ok (perms p) 0 hInv hpass
        obtain ⟨hInvF, hleF⟩ := ih cur (aliveCount st1) (p + 1) hInv1 h
        exact ⟨hInvF, le_trans hleF hle1⟩

theorem runPass_err {U V : List ℚ} {T M : ℚ} {pk : ℕ → ℕ} :
    ∀ (visit : List ℕ) (k : ℕ) {st : SState} {e : SerpErr},
      runPass U V T M pk visit k st = .error e → e = .indexError := by
  intro visit
  induction visit with
  | nil =>
    intro k st e h
    unfold runPass at h
    exact absurd h (by simp)
  | cons s0 rest ih =>
    intro k st e h
    unfold runPass at h
    cases hstep : visitStep U V T M (pk k) st s0 with
    | error e' =>
      rw [hstep] at h
      injection h with hh
      rw [← hh]
      exact visitStep_err hstep
    | ok st1 =>
      rw [hstep] at h
      exact ih (k + 1) h

theorem mergerLoop_noFuel {tri : Bool} {r c : ℕ} {U V : List ℚ} {T M : ℚ}
    {perms : ℕ → List ℕ} {picks : ℕ → ℕ → ℕ} :
    ∀ (n : ℕ) {st : SState}, aliveCount st = n → SInv tri r c st →
      ∀ fuel prev p, n + 2 ≤ fuel →
        mergerLoop U V T M perms picks fuel prev (aliveCount st) p st
          ≠ .error .outOfFuel := by
  intro n
  induction n using Nat.strong_induction_on with
  | _ n ih =>
    intro st hcount hInv fuel prev p hfuel
    match fuel, hfuel with
    | f + 1, hfuel =>
      unfold mergerLoop
      by_cases hg : aliveCount st = prev
      · rw [if_pos hg]
        simp
      · rw [if_neg hg]
        cases hpass : runPass U V T M (picks p) (perms p) 0 st with
        | error e =>
          have he : e = .indexError := runPass_err (perms p) 0 hpass
          subst he
          simp
        | ok st1 =>
          obtain ⟨hInv1, hle1, hdich, _⟩ := runPass_ok (perms p) 0 hInv hpass
          rcases hdich with rfl | hlt
          · -- unchanged pass: the next iteration hits the equal guard
            intro hbad
            match f, hfuel with
            | f' + 1, _ =>
              unfold mergerLoop at hbad
              rw [if_pos rfl] at hbad
              exact absurd hbad (by simp)
          · -- strictly smaller live count: induction
            have hlt' : aliveCount st1 < n := by omega
            have := ih (aliveCount st1) hlt' rfl hInv1 f (aliveCount st) (p + 1) (by omega)
            intro hbad
            exact this hbad

theorem one_alive_le {st : SState} {i : ℕ} (hi : (st.pixels.getD i none).isSome) :
    1 ≤ aliveCount st := by
  have h := getD_le_sum_map (fun op => if op.isSome then 1 else 0) st.pixels i
    (isSome_lt_length hi)
  simp only [hi, if_true] at h
  unfold aliveCount
  omega

theorem runPass_pos {tri : Bool} {r c : ℕ} {U V : List ℚ} {T M : ℚ} {pk : ℕ → ℕ} :
    ∀ (visit : List ℕ) (k : ℕ) {st st' : SState}, SInv tri r c st →
      runPass U V T M pk visit k st = .ok st' →
      1 ≤ aliveCount st → 1 ≤ aliveCount st' := by
  intro visit
  induction visit with
  | nil =>
    intro k st st' _ h hpos
    injection h with h
    subst h
    exact hpos
  | cons serp rest ih =>
    intro k st st' hInv h hpos
    unfold runPass at h
    cases hstep : visitStep U V T M (pk k) st serp with
    | error e =>
      rw [hstep] at h
      exact absurd h (by simp)
    | ok st1 =>
      rw [hstep] at h
      obtain ⟨hInv1, hdich1⟩ := visitStep_ok hInv hstep
      refine ih (k + 1) hInv1 h ?_
      rcases hdich1 with rfl | ⟨_, ⟨w, hw⟩, _⟩
      · exact hpos
      · exact one_alive_le hw

theorem mergerLoop_pos {tri : Bool} {r c : ℕ} {U V : List ℚ} {T M : ℚ}
    {perms : ℕ → List ℕ} {picks : ℕ → ℕ → ℕ} :
    ∀ (fuel prev cur p : ℕ) {st stF : SState}, SInv tri r c st →
      mergerLoop U V T M perms picks fuel prev cur p st = .ok stF →
      1 ≤ aliveCount st → 1 ≤ aliveCount stF := by
  intro fuel
  induction fuel with
  | zero =>
    intro prev cur p st stF _ h
    exact absurd h (by simp [mergerLoop])
  | succ f ih =>
    intro prev cur p st stF hInv h hpos
    unfold mergerLoop at h
    by_cases hg : cur = prev
    · rw [if_pos hg] at h
      injection h with h
      subst h
      exact hpos
    · rw [if_neg hg] at h
      cases hpass : runPass U V T M (picks p) (perms p) 0 st with
      | error e =>
        rw [hpass] at h
        exact absurd h (by simp)
      | ok st1 =>
        rw [hpass] at h
        obtain ⟨hInv1, _, _, _⟩ := runPass_ok (perms p) 0 hInv hpass
        exact ih cur (aliveCount st1) (p + 1) hInv1 h
          (runPass_pos (perms p) 0 hInv hpass hpos)

theorem not_regionPred {U V : List ℚ} {T M : ℚ} {mem : List ℕ} :
    ¬ regionPred U V T M mem ↔
      ((T ≤ aggregate U mem ∨ T ≤ aggregate V mem) ∧
        M ≤ aggregate U mem ∧ M ≤ aggregate V mem) := by
  unfold regionPred
  constructor
  · intro h
    push_neg at h
    obtain ⟨h1, h2, h3⟩ := h
    refine ⟨?_, h2, h3⟩
    by_cases hu : aggregate U mem < T
    · exact Or.inr (h1 hu)
    · exact Or.inl (le_of_not_lt hu)
  · rintro ⟨h1, h2, h3⟩ (⟨hu, hv⟩ | hu | hv)
    · rcases h1 with h | h
      · exact absurd hu (not_lt.mpr h)
      · exact absurd hv (not_lt.mpr h)
    · exact absurd hu (not_lt.mpr h2)
    · exact absurd hv (not_lt.mpr h3)

theorem single_alive_empty {tri : Bool} {r c : ℕ} {st : SState} (hInv : SInv tri r c st)
    (hone : aliveCount st = 1) {i : ℕ} {s : List ℕ}
    (hs : st.neighs.getD i none = some s) : s = [] := by
  by_contra hne
  obtain ⟨z, hz⟩ := List.exists_mem_of_ne_nil s hne
  obtain ⟨hzLt, hzNe, sz, hsz, _⟩ := hInv.neighOK i s hs z hz
  have hiAlive : (st.pixels.getD i none).isSome := by
    rw [hInv.aliveIff i, hs]
    rfl
  have hzAlive : (st.pixels.getD z none).isSome := by
    rw [hInv.aliveIff z, hsz]
    rfl
  have := two_alive_le hzNe hzAlive hiAlive
  omega

theorem mergerLoop_conv {tri : Bool} {r c : ℕ} {U V : List ℚ} {T M : ℚ}
    {perms : ℕ → List ℕ} {picks : ℕ → ℕ → ℕ}
    (hcov : ∀ p i, i < numRegions tri r c → i ∈ perms p) :
    ∀ (fuel prev cur p : ℕ) {st stF : SState}, SInv tri r c st →
      (cur = aliveCount st ∨ cur = 1) →
      (cur = prev → ∀ i mem, st.pixels.getD i none = some mem →
        ¬ regionPred U V T M mem ∨ (st.neighs.getD i none).getD [] = []) →
      mergerLoop U V T M perms picks fuel prev cur p st = .ok stF →
      ∀ i mem, stF.pixels.getD i none = some mem →
        ¬ regionPred U V T M mem ∨ (stF.neighs.getD i none).getD [] = [] := by
  intro fuel
  induction fuel with
  | zero =>
    intro prev cur p st stF _ _ _ h
    exact absurd h (by simp [mergerLoop])
  | succ f ih =>
    intro prev cur p st stF hInv hcur hguard h
    unfold mergerLoop at h
    by_cases hg : cur = prev
    · rw [if_pos hg] at h
      injection h with h
      subst h
      exact hguard hg
    · rw [if_neg hg] at h
      cases hpass : runPass U V T M (picks p) (perms p) 0 st with
      | error e =>
        rw [hpass] at h
        exact absurd h (by simp)
      | ok st1 =>
        rw [hpass] at h
        obtain ⟨hInv1, hle1, hdich, _⟩ := runPass_ok (perms p) 0 hInv hpass
        refine ih cur (aliveCount st1) (p + 1) hInv1 (Or.inl rfl) ?_ h
        intro heq i mem hmem
        rcases hdich with rfl | hlt
        · -- unchanged pass: every live region was visited and left alone
          have hiv : i ∈ perms p := by
            apply hcov p i
            rw [← hInv.lenP]
            exact isSome_lt_length (by rw [hmem]; rfl)
          obtain ⟨pick, hfix⟩ := runPass_same (perms p) 0 hInv hpass i hiv
          exact Or.inl (visitStep_fix hInv hfix hmem)
        · -- the live count reached the sentinel value 1
          rcases hcur with rfl | rfl
          · omega
          · right
            have hone : aliveCount st1 = 1 := heq
            cases hsn : st1.neighs.getD i none with
            | none => rfl
            | some s =>
              rw [single_alive_empty hInv1 hone hsn]
              rfl

theorem serpentinConverge_conv {tri : Bool} {r c : ℕ} {U V : List ℚ} {T M : ℚ}
    {perms : ℕ → List ℕ} {picks : ℕ → ℕ → ℕ} {stF : SState}
    (hcov : ∀ p i, i < numRegions tri r c → i ∈ perms p)
    (h : serpentinConverge U V T M tri r c perms picks = .ok stF) :
    SInv tri r c stF ∧
    ∀ i mem, stF.pixels.getD i none = some mem →
      ¬ regionPred U V T M mem ∨ (stF.neighs.getD i none).getD [] = [] := by
  unfold serpentinConverge at h
  refine ⟨(mergerLoop_ok _ 0 1 0 (sinv_init tri r c) h).1, ?_⟩
  exact mergerLoop_conv hcov _ 0 1 0 (sinv_init tri r c) (Or.inr rfl)
    (fun hh => absurd hh (by omega)) h

theorem serpentinConverge_noFuel {tri : Bool} {r c : ℕ} {U V : List ℚ} {T M : ℚ}
    {perms : ℕ → List ℕ} {picks : ℕ → ℕ → ℕ} :
    serpentinConverge U V T M tri r c perms picks ≠ .error .outOfFuel := by
  unfold serpentinConverge mergerLoop
  rw [if_neg (by omega : ¬ (1 : ℕ) = 0)]
  cases hpass : runPass U V T M (picks 0) (perms 0) 0 (initState tri r c) with
  | error e =>
    have he : e = .indexError := runPass_err (perms 0) 0 hpass
    subst he
    simp
  | ok st1 =>
    obtain ⟨hInv1, hle1, _, _⟩ := runPass_ok (perms 0) 0 (sinv_init tri r c) hpass
    exact mergerLoop_noFuel (aliveCount st1) rfl hInv1 (aliveCount (initState tri r c) + 3)
      1 1 (by omega)

/-! ### Mean-fill lemmas -/

theorem writeAll_length (v : ℚ) : ∀ (mem : List ℕ) (u : List ℚ),
    (writeAll mem v u).length = u.length := by
  intro mem
  induction mem with
  | nil => intro u; rfl
  | cons k rest ih =>
    intro u
    show (writeAll rest v (u.set k v)).length = u.length
    rw [ih (u.set k v), List.length_set]

theorem writeAll_getD_notMem (v : ℚ) : ∀ (mem : List ℕ) {x : ℕ} (u : List ℚ),
    x ∉ mem → (writeAll mem v u).getD x 0 = u.getD x 0 := by
  intro mem
  induction mem with
  | nil => intro x u _; rfl
  | cons k rest ih =>
    intro x u hx
    have hxk : k ≠ x := fun h => hx (h ▸ List.mem_cons_self k rest)
    have hxr : x ∉ rest := fun h => hx (List.mem_cons_of_mem k h)
    show (writeAll rest v (u.set k v)).getD x 0 = u.getD x 0
    rw [ih (u.set k v) hxr, getD_set_ne u 0 v hxk]

theorem writeAll_getD_mem (v : ℚ) : ∀ (mem : List ℕ) {x : ℕ} (u : List ℚ),
    x ∈ mem → x < u.length → (writeAll mem v u).getD x 0 = v := by
  intro mem
  induction mem with
  | nil => intro x u hx; exact absurd hx (List.not_mem_nil x)
  | cons k rest ih =>
    intro x u hx hlt
    show (writeAll rest v (u.set k v)).getD x 0 = v
    by_cases hxr : x ∈ rest
    · exact ih (u.set k v) hxr (by rw [List.length_set]; exact hlt)
    · have hxk : x = k := by
        rcases List.mem_cons.mp hx with h | h
        · exact h
        · exact absurd h hxr
      subst hxk
      rw [writeAll_getD_notMem v rest (u.set x v) hxr]
      exact getD_set_self u 0 v hlt

theorem writeAll_sum (v : ℚ) : ∀ (mem : List ℕ) (u : List ℚ), mem.Nodup →
    (∀ k ∈ mem, k < u.length) →
    (writeAll mem v u).sum = u.sum - (mem.map (fun k => u.getD k 0)).sum
      + mem.length * v := by
  intro mem
  induction mem with
  | nil => intro u _ _; simp [writeAll]
  | cons k rest ih =>
    intro u hnd hin
    have hknr : k ∉ rest := (List.nodup_cons.mp hnd).1
    have hklt : k < u.length := hin k (List.mem_cons_self k rest)
    show (writeAll rest v (u.set k v)).sum = _
    rw [ih (u.set k v) (List.nodup_cons.mp hnd).2
      (fun j hj => by rw [List.length_set]; exact hin j (List.mem_cons_of_mem k hj))]
    rw [sum_set_rat u k v hklt]
    have hmap : rest.map (fun j => (u.set k v).getD j 0) = rest.map (fun j => u.getD j 0) := by
      apply List.map_congr_left
      intro j hj
      exact getD_set_ne u 0 v (fun h => hknr (h ▸ hj))
    rw [hmap, List.map_cons, List.sum_cons, List.length_cons]
    push_cast
    ring

theorem meanFill_length : ∀ (ps : List (Option (List ℕ))) (u : List ℚ),
    (meanFill ps u).length = u.length := by
  intro ps
  induction ps with
  | nil => intro u; rfl
  | cons op rest ih =>
    intro u
    cases op with
    | none => exact ih u
    | some mem =>
      show (meanFill rest (writeAll mem _ u)).length = u.length
      rw [ih, writeAll_length]

theorem aggregate_congr {u u' : List ℚ} {l : List ℕ}
    (h : ∀ k ∈ l, u.getD k 0 = u'.getD k 0) : aggregate u l = aggregate u' l := by
  unfold aggregate
  congr 1
  exact List.map_congr_left h

theorem meanFill_sum : ∀ (ps : List (Option (List ℕ))) (u : List ℚ),
    (∀ l, some l ∈ ps → l.Nodup ∧ l ≠ [] ∧ ∀ k ∈ l, k < u.length) →
    (meanFill ps u).sum = u.sum := by
  intro ps
  induction ps with
  | nil => intro u _; rfl
  | cons op rest ih =>
    intro u hok
    cases op with
    | none => exact ih u (fun l hl => hok l (List.mem_cons_of_mem none hl))
    | some mem =>
      obtain ⟨hnd, hne, hin⟩ := hok mem (List.mem_cons_self _ _)
      show (meanFill rest (writeAll mem (aggregate u mem * 1 / (mem.length : ℚ)) u)).sum
        = u.sum
      have hlen : ((mem.length : ℚ)) ≠ 0 := by
        have : mem.length ≠ 0 := fun h => hne (List.length_eq_zero.mp h)
        exact_mod_cast this
      have hws := writeAll_sum (aggregate u mem * 1 / (mem.length : ℚ)) mem u hnd hin
      have hcancel : (mem.length : ℚ) * (aggregate u mem * 1 / (mem.length : ℚ))
          = aggregate u mem := by
        field_simp
      have hagg : (mem.map (fun k => u.getD k 0)).sum = aggregate u mem := rfl
      rw [ih _ (fun l hl => by
        obtain ⟨h1, h2, h3⟩ := hok l (List.mem_cons_of_mem _ hl)
        exact ⟨h1, h2, fun k hk => by rw [writeAll_length]; exact h3 k hk⟩)]
      rw [hws, hagg, hcancel]
      ring

theorem meanFill_getD_notMem : ∀ (ps : List (Option (List ℕ))) (u : List ℚ) {x : ℕ},
    (∀ l, some l ∈ ps → x ∉ l) → (meanFill ps u).getD x 0 = u.getD x 0 := by
  intro ps
  induction ps with
  | nil => intro u x _; rfl
  | cons op rest ih =>
    intro u x hx
    cases op with
    | none => exact ih u (fun l hl => hx l (List.mem_cons_of_mem none hl))
    | some mem =>
      show (meanFill rest (writeAll mem _ u)).getD x 0 = u.getD x 0
      rw [ih _ (fun l hl => hx l (List.mem_cons_of_mem _ hl))]
      exact writeAll_getD_notMem _ mem u (hx mem (List.mem_cons_self _ _))

theorem meanFill_getD_mem :
    ∀ (ps : List (Option (List ℕ))) (u : List ℚ) {l : List ℕ} {x : ℕ},
      some l ∈ ps → x ∈ l → x < u.length →
      (∀ l', some l' ∈ ps → ∀ k ∈ l', k < u.length) →
      List.Pairwise (fun a b => ∀ la lb, a = some la → b = some lb →
        ∀ y ∈ la, y ∉ lb) ps →
      (meanFill ps u).getD x 0 = aggregate u l * 1 / (l.length : ℚ) := by
  intro ps
  induction ps with
  | nil => intro u l x hl; exact absurd hl (List.not_mem_nil _)
  | cons op rest ih =>
    intro u l x hl hx hlt hin hpw
    cases op with
    | none =>
      have hl' : some l ∈ rest := by
        rcases List.mem_cons.mp hl with h | h
        · exact absurd h (by simp)
        · exact h
      exact ih u hl' hx hlt (fun l' h' => hin l' (List.mem_cons_of_mem none h'))
        (List.pairwise_cons.mp hpw).2
    | some mem =>
      obtain ⟨hhead, htail⟩ := List.pairwise_cons.mp hpw
      rcases List.mem_cons.mp hl with heq | hl'
      · obtain rfl := (Option.some.inj heq).symm
        show (meanFill rest (writeAll mem (aggregate u mem * 1 / (mem.length : ℚ)) u)).getD
          x 0 = _
        rw [meanFill_getD_notMem rest _
          (fun l' hl' => hhead (some l') hl' mem l' rfl rfl x hx)]
        exact writeAll_getD_mem _ mem u hx hlt
      · show (meanFill rest (writeAll mem (aggregate u mem * 1 / (mem.length : ℚ)) u)).getD
          x 0 = _
        have hdisj : ∀ k ∈ l, k ∉ mem := by
          intro k hk hkmem
          exact hhead (some l) hl' mem l rfl rfl k hkmem hk
        have hagg : aggregate (writeAll mem (aggregate u mem * 1 / (mem.length : ℚ)) u) l
            = aggregate u l := by
          apply aggregate_congr
          intro k hk
          exact writeAll_getD_notMem _ mem u (hdisj k hk)
        rw [ih _ hl' hx (by rw [writeAll_length]; exact hlt)
          (fun l' h' k hk => by
            rw [writeAll_length]
            exact hin l' (List.mem_cons_of_mem _ h') k hk) htail]
        rw [hagg]

/-! ### From the invariant to the reduction hypotheses -/

theorem mem_exists_getD {α : Type} {l : List α} {a : α} (d : α) (h : a ∈ l) :
    ∃ i, i < l.length ∧ l.getD i d = a := by
  obtain ⟨n, hn⟩ := List.mem_iff_getElem?.mp h
  refine ⟨n, (List.getElem?_eq_some_iff.mp hn).1, ?_⟩
  rw [List.getD_eq_getElem?_getD, hn]
  rfl

theorem sinv_owners_le {tri : Bool} {r c : ℕ} {st : SState} (hInv : SInv tri r c st)
    (x : ℕ) : ownersCount st x ≤ 1 := by
  by_cases hx : x ∈ universeL tri r c
  · rw [hInv.owners x hx]
  · rw [ownersCount_eq]
    by_contra hge
    have hne : ((st.pixels.map (fun op => (op.getD []).count x)).sum) ≠ 0 := by omega
    obtain ⟨op, hop, hne0⟩ := sum_map_ne_zero hne
    cases op with
    | none => exact hne0 rfl
    | some l =>
      simp only [Option.getD_some] at hne0
      have hxl : x ∈ l := List.count_pos_iff.mp (by omega)
      obtain ⟨i, _, hgi⟩ := mem_exists_getD none hop
      exact hx (hInv.membU i l hgi x hxl)

theorem sinv_memNodup {tri : Bool} {r c : ℕ} {st : SState} (hInv : SInv tri r c st)
    {i : ℕ} {l : List ℕ} (hl : st.pixels.getD i none = some l) : l.Nodup := by
  rw [List.nodup_iff_count_le_one]
  intro x
  have h := getD_le_sum_map (fun op => (op.getD []).count x) st.pixels i
    (lt_length_of_getD_some hl)
  rw [hl] at h
  simp only [Option.getD_some] at h
  have h2 := sinv_owners_le hInv x
  rw [ownersCount_eq] at h2
  omega

theorem pairwise_of_ownersum : ∀ (ps : List (Option (List ℕ))),
    (∀ x, ((ps.map (fun op => (op.getD []).count x)).sum) ≤ 1) →
    List.Pairwise (fun a b => ∀ la lb, a = some la → b = some lb →
      ∀ y ∈ la, y ∉ lb) ps := by
  intro ps
  induction ps with
  | nil => intro _; exact List.Pairwise.nil
  | cons a rest ih =>
    intro hsum
    refine List.pairwise_cons.mpr ⟨?_, ih ?_⟩
    · intro b hb la lb ha hb' y hya hyb
      subst ha
      have h1 := hsum y
      rw [List.map_cons, List.sum_cons] at h1
      simp only [Option.getD_some] at h1
      have hca : 1 ≤ la.count y := List.count_pos_iff.mpr hya
      have hcb : 1 ≤ lb.count y := List.count_pos_iff.mpr hyb
      have hmem : lb.count y ∈ (rest.map (fun op => (op.getD []).count y)) := by
        have : (fun op : Option (List ℕ) => (op.getD []).count y) b = lb.count y := by
          rw [hb']
          rfl
        rw [← this]
        exact List.mem_map_of_mem _ hb
      have hle := List.single_le_sum (fun z _ => Nat.zero_le z) _ hmem
      omega
    · intro x
      have h1 := hsum x
      rw [List.map_cons, List.sum_cons] at h1
      omega

theorem sinv_pairwise {tri : Bool} {r c : ℕ} {st : SState} (hInv : SInv tri r c st) :
    List.Pairwise (fun a b => ∀ la lb, a = some la → b = some lb →
      ∀ y ∈ la, y ∉ lb) st.pixels := by
  apply pairwise_of_ownersum
  intro x
  have := sinv_owners_le hInv x
  rw [ownersCount_eq] at this
  exact this

theorem sinv_meanFill_hyps {tri : Bool} {r c : ℕ} {st : SState} (hInv : SInv tri r c st)
    {u : List ℚ} (hu : r * (if tri then r else c) ≤ u.length) :
    ∀ l, some l ∈ st.pixels → l.Nodup ∧ l ≠ [] ∧ ∀ k ∈ l, k < u.length := by
  intro l hl
  obtain ⟨i, _, hgi⟩ := mem_exists_getD none hl
  refine ⟨sinv_memNodup hInv hgi, hInv.membNE i l hgi, ?_⟩
  intro k hk
  have := universeL_lt (hInv.membU i l hgi k hk)
  omega

/-! ### Grid connectivity -/

theorem grid_closed_zero {r c : ℕ} {S : List ℕ}
    (hcl : ∀ i j, i < r → j < c → i * c + j ∈ S →
      ∀ q ∈ pixel_neighs i j r c, q.1 * c + q.2 ∈ S) :
    ∀ m i j, i + j ≤ m → i < r → j < c → i * c + j ∈ S → 0 * c + 0 ∈ S := by
  intro m
  induction m with
  | zero =>
    intro i j hij hi hj hmem
    have h0 : i = 0 ∧ j = 0 := by omega
    rw [h0.1, h0.2] at hmem
    exact hmem
  | succ m ihm =>
    intro i j hij hi hj hmem
    by_cases hi0 : 0 < i
    · have hq : (i - 1, j) ∈ pixel_neighs i j r c := mem_pixel_neighs.mpr (Or.inl ⟨hi0, rfl⟩)
      have hstep := hcl i j hi hj hmem _ hq
      exact ihm (i - 1) j (by omega) (by omega) hj hstep
    · by_cases hj0 : 0 < j
      · have hq : (i, j - 1) ∈ pixel_neighs i j r c :=
          mem_pixel_neighs.mpr (Or.inr (Or.inr (Or.inl ⟨hj0, rfl⟩)))
        have hstep := hcl i j hi hj hmem _ hq
        exact ihm i (j - 1) (by omega) hi (by omega) hstep
      · have h0 : i = 0 ∧ j = 0 := by omega
        rw [h0.1, h0.2] at hmem
        exact hmem

theorem grid_closed_up {r c : ℕ} {S : List ℕ}
    (hcl : ∀ i j, i < r → j < c → i * c + j ∈ S →
      ∀ q ∈ pixel_neighs i j r c, q.1 * c + q.2 ∈ S)
    (hz : 0 * c + 0 ∈ S) :
    ∀ m i j, i + j ≤ m → i < r → j < c → i * c + j ∈ S := by
  intro m
  induction m with
  | zero =>
    intro i j hij hi hj
    have h0 : i = 0 ∧ j = 0 := by omega
    rw [h0.1, h0.2]
    exact hz
  | succ m ihm =>
    intro i j hij hi hj
    by_cases hi0 : 0 < i
    · have hprev : (i - 1) * c + j ∈ S := ihm (i - 1) j (by omega) (by omega) hj
      have hq : (i, j) ∈ pixel_neighs (i - 1) j r c :=
        mem_pixel_neighs.mpr (Or.inr (Or.inl ⟨by omega, Prod.ext (show i = i - 1 + 1 by omega) rfl⟩))
      have := hcl (i - 1) j (by omega) hj hprev (i, j) hq
      exact this
    · by_cases hj0 : 0 < j
      · have hprev : i * c + (j - 1) ∈ S := ihm i (j - 1) (by omega) hi (by omega)
        have hq : (i, j) ∈ pixel_neighs i (j - 1) r c :=
          mem_pixel_neighs.mpr (Or.inr (Or.inr (Or.inr
            ⟨by omega, Prod.ext rfl (show j = j - 1 + 1 by omega)⟩)))
        have := hcl i (j - 1) hi (by omega) hprev (i, j) hq
        exact this
      · have h0 : i = 0 ∧ j = 0 := by omega
        rw [h0.1, h0.2]
        exact hz

/-- A nonempty subset of a full grid that is closed under taking 4-neighbours
contains every cell of the grid. -/
theorem grid_closed_all {r c : ℕ} {S : List ℕ}
    (hcl : ∀ i j, i < r → j < c → i * c + j ∈ S →
      ∀ q ∈ pixel_neighs i j r c, q.1 * c + q.2 ∈ S)
    {i0 j0 : ℕ} (h0 : i0 < r) (hj0 : j0 < c) (hmem : i0 * c + j0 ∈ S) :
    ∀ i j, i < r → j < c → i * c + j ∈ S := by
  have hz := grid_closed_zero hcl (i0 + j0) i0 j0 le_rfl h0 hj0 hmem
  intro i j hi hj
  exact grid_closed_up hcl hz (i + j) i j le_rfl hi hj

/-! ### Output-matrix entries -/

theorem amodTri_length (n : ℕ) (U : List ℚ) : (amodTri n U).length = n * n := by
  unfold amodTri
  rw [List.length_map, List.length_range]

theorem dTri_length (log2 : ℚ → ℚ) (n : ℕ) (U V : List ℚ) :
    (dTri log2 n U V).length = n * n := by
  unfold dTri
  rw [List.length_map, List.length_range]

theorem amodTri_getD_low {n : ℕ} {U : List ℚ} {i j : ℕ} (hj : j ≤ i) (hi : i < n) :
    (amodTri n U).getD (i * n + j) 0 = U.getD (i * n + j) 0 := by
  have hjn : j < n := by omega
  unfold amodTri
  rw [getD_map_range _ _ (flat_lt hi hjn)]
  rw [flat_div hjn, flat_mod hjn]
  unfold trilEntry
  rcases Nat.lt_or_ge j i with hlt | hge
  · rw [if_pos hj, if_neg (by omega), if_neg (by omega)]
    ring
  · have hij : i = j := by omega
    subst hij
    rw [if_pos le_rfl, if_pos rfl]
    ring

theorem dTri_getD_low {f : ℚ → ℚ} {n : ℕ} {U V : List ℚ} {i j : ℕ}
    (hj : j ≤ i) (hi : i < n) :
    (dTri f n U V).getD (i * n + j) 0
      = f (V.getD (i * n + j) 0 * 1 / U.getD (i * n + j) 0) := by
  have hjn : j < n := by omega
  unfold dTri
  rw [getD_map_range _ _ (flat_lt hi hjn)]
  rw [flat_div hjn, flat_mod hjn, if_pos hj]

theorem dTri_getD_up {f : ℚ → ℚ} {n : ℕ} {U V : List ℚ} {i j : ℕ}
    (hij : i < j) (hj : j < n) :
    (dTri f n U V).getD (i * n + j) 0 = 0 := by
  unfold dTri
  rw [getD_map_range _ _ (flat_lt (by omega) hj)]
  rw [flat_div hj, flat_mod hj, if_neg (by omega)]

theorem dFull_getD {f : ℚ → ℚ} {U V : List ℚ} {k : ℕ} (hk : k < U.length) :
    (dFull f U V).getD k 0 = f (V.getD k 0 * 1 / U.getD k 0) := by
  unfold dFull
  rw [getD_map_range _ _ hk]

/-! ### Unfolding helpers for the public entry points -/

theorem validate_ok_false {A B : Mat} {T M : ℚ}
    (h : validateInput A B T M false = .ok ()) :
    A.rows = B.rows ∧ A.cols = B.cols ∧ M < T := by
  unfold validateInput at h
  by_cases h1 : A.rows = B.rows ∧ A.cols = B.cols
  · rw [if_pos h1] at h
    by_cases h2 : M < T
    · exact ⟨h1.1, h1.2, h2⟩
    · rw [if_neg h2] at h
      exact absurd h (by simp)
  · rw [if_neg h1] at h
    exact absurd h (by simp)

theorem validate_ok_true {A B : Mat} {T M : ℚ}
    (h : validateInput A B T M true = .ok ()) :
    A.rows = B.rows ∧ A.cols = B.cols ∧ A.rows = A.cols ∧ M < T := by
  unfold validateInput at h
  by_cases h1 : A.rows = B.rows ∧ A.cols = B.cols ∧ min A.rows A.cols = max A.rows A.cols
  · rw [if_pos h1] at h
    by_cases h2 : M < T
    · refine ⟨h1.1, h1.2.1, ?_, h2⟩
      have := h1.2.2
      rcases Nat.le_total A.rows A.cols with hle | hle
      · rw [min_eq_left hle, max_eq_right hle] at this
        exact this
      · rw [min_eq_right hle, max_eq_left hle] at this
        exact this.symm
    · rw [if_neg h2] at h
      exact absurd h (by simp)
  · rw [if_neg h1] at h
    exact absurd h (by simp)

theorem iteration_false_ok {f : ℚ → ℚ} {perms : ℕ → List ℕ} {picks : ℕ → ℕ → ℕ}
    {A B : Mat} {T M : ℚ} {am bm d : List ℚ}
    (h : serpentin_iteration f perms picks A B T M false = .ok (am, bm, d)) :
    validateInput A B T M false = .ok () ∧
    ∃ stF, serpentinConverge A.data B.data T M false A.rows A.cols perms picks
        = .ok stF ∧
      am = meanFill stF.pixels A.data ∧ bm = meanFill stF.pixels B.data ∧
      d = dFull f (meanFill stF.pixels A.data) (meanFill stF.pixels B.data) := by
  unfold serpentin_iteration at h
  cases hv : validateInput A B T M false with
  | error e =>
    rw [hv] at h
    exact absurd h (by simp)
  | ok u =>
    cases u
    rw [hv] at h
    refine ⟨rfl, ?_⟩
    cases hc : serpentinConverge A.data B.data T M false A.rows A.cols perms picks with
    | error e =>
      rw [hc] at h
      exact absurd h (by simp)
    | ok stF =>
      rw [hc] at h
      simp only [Bool.false_eq_true, if_false] at h
      injection h with h
      injection h with h1 h
      injection h with h2 h3
      exact ⟨stF, rfl, h1.symm, h2.symm, h3.symm⟩

theorem iteration_true_ok {f : ℚ → ℚ} {perms : ℕ → List ℕ} {picks : ℕ → ℕ → ℕ}
    {A B : Mat} {T M : ℚ} {am bm d : List ℚ}
    (h : serpentin_iteration f perms picks A B T M true = .ok (am, bm, d)) :
    validateInput A B T M true = .ok () ∧
    ∃ stF, serpentinConverge A.data B.data T M true A.rows A.cols perms picks
        = .ok stF ∧
      am = amodTri A.rows (meanFill stF.pixels A.data) ∧
      bm = amodTri A.rows (meanFill stF.pixels B.data) ∧
      d = dTri f A.rows (meanFill stF.pixels A.data) (meanFill stF.pixels B.data) := by
  unfold serpentin_iteration at h
  cases hv : validateInput A B T M true with
  | error e =>
    rw [hv] at h
    exact absurd h (by simp)
  | ok u =>
    cases u
    rw [hv] at h
    refine ⟨rfl, ?_⟩
    cases hc : serpentinConverge A.data B.data T M true A.rows A.cols perms picks with
    | error e =>
      rw [hc] at h
      exact absurd h (by simp)
    | ok stF =>
      rw [hc] at h
      simp only [if_true] at h
      injection h with h
      injection h with h1 h
      injection h with h2 h3
      exact ⟨stF, rfl, h1.symm, h2.symm, h3.symm⟩

theorem serpentinConverge_sinv {tri : Bool} {r c : ℕ} {U V : List ℚ} {T M : ℚ}
    {perms : ℕ → List ℕ} {picks : ℕ → ℕ → ℕ} {stF : SState}
    (h : serpentinConverge U V T M tri r c perms picks = .ok stF) :
    SInv tri r c stF := by
  unfold serpentinConverge at h
  exact (mergerLoop_ok _ 0 1 0 (sinv_init tri r c) h).1

theorem aliveCount_init (tri : Bool) (r c : ℕ) :
    aliveCount (initState tri r c) = numRegions tri r c := by
  have hall : ∀ (cells : List (ℕ × ℕ)) (g : ℕ × ℕ → Option (List ℕ)),
      (∀ p, (g p).isSome = true) →
      ((cells.map g).map (fun op => if op.isSome then 1 else 0)).sum = cells.length := by
    intro cells g hg
    induction cells with
    | nil => rfl
    | cons p rest ih =>
      rw [List.map_cons, List.map_cons, List.sum_cons, ih, hg p, if_pos rfl,
        List.length_cons]
      omega
  unfold aliveCount numRegions initState
  cases tri
  · simp only [Bool.false_eq_true, if_false]
    rw [hall (gridCells r c) (fun p => some [p.1 * c + p.2]) (fun p => rfl),
      List.length_map]
  · simp only [if_true]
    rw [hall (triCells r) (fun p => some [p.1 * r + p.2]) (fun p => rfl),
      List.length_map]

/-- Every invariant state is a partition of the pixel universe. -/
theorem sinv_partition {tri : Bool} {r c : ℕ} {st : SState} (hInv : SInv tri r c st) :
    Partition tri r c st := by
  refine ⟨hInv.owners, ?_, ?_, ?_⟩
  · intro x hx
    rw [ownersCount_eq]
    by_contra hne
    obtain ⟨op, hop, hne0⟩ := sum_map_ne_zero hne
    cases op with
    | none => exact hne0 rfl
    | some l =>
      simp only [Option.getD_some] at hne0
      have hxl : x ∈ l := List.count_pos_iff.mp (by omega)
      obtain ⟨i, _, hgi⟩ := mem_exists_getD none hop
      exact hx (hInv.membU i l hgi x hxl)
  · intro i j li lj hij hgi hgj x hxi hxj
    have h2 := getD_two_le_sum_map (fun op => (op.getD []).count x) st.pixels i j hij
      (lt_length_of_getD_some hgi) (lt_length_of_getD_some hgj)
    rw [hgi, hgj] at h2
    simp only [Option.getD_some] at h2
    have hle := sinv_owners_le hInv x
    rw [ownersCount_eq] at hle
    have hcx : 0 < li.count x := List.count_pos_iff.mpr hxi
    have hcy : 0 < lj.count x := List.count_pos_iff.mpr hxj
    omega
  · intro x hx
    have h1 := hInv.owners x hx
    rw [ownersCount_eq] at h1
    have hne : (st.pixels.map (fun op => (op.getD []).count x)).sum ≠ 0 := by omega
    obtain ⟨op, hop, hne0⟩ := sum_map_ne_zero hne
    cases op with
    | none => exact absurd rfl hne0
    | some l =>
      simp only [Option.getD_some] at hne0
      obtain ⟨i, _, hgi⟩ := mem_exists_getD none hop
      exact ⟨i, l, hgi, List.count_pos_iff.mp (by omega)⟩

/-! ### The claims -/

attribute [local semireducible] Rat.add Rat.mul Rat.inv Rat.sub

/-- C1: refuted as stated (code bug).  The spec says a merge-eligible region
with an empty neighbour set is skipped and the trial still completes.  In the
code the draw `np.random.choice(tuple(neighs[serp]))` happens whenever the
merge predicate holds, and on an empty tuple it raises IndexError.  Concretely,
for the well-formed input A = B = [[0]] (equal shapes, minthreshold 1 <
threshold 10, non-triangular) the single region satisfies the predicate, has
no neighbours, and the trial aborts with IndexError instead of returning a
triple. -/
theorem c1_empty_neighbour_set_raises :
    errOf (serpentin_iteration (fun _ => 0) (fun _ => [0]) (fun _ _ => 0)
      ⟨1, 1, [0]⟩ ⟨1, 1, [0]⟩ 10 1 false) = some .indexError := by
  decide

/-- C4: confirmed.  A visited live region with aggregates `(a, b)` attempts a
merge exactly when `(a < threshold ∧ b < threshold) ∨ a < minthreshold ∨
b < minthreshold`: when the predicate fails the visit returns the state
unchanged, and when it holds the visit either merges with a drawn member of
the region's current neighbour set or (neighbour set empty) raises
IndexError. -/
theorem c4_merge_predicate (U V : List ℚ) (T M : ℚ) (pick : ℕ) (st : SState)
    (serp : ℕ) (mem : List ℕ) (hmem : st.pixels.getD serp none = some mem) :
    (¬ ((aggregate U mem < T ∧ aggregate V mem < T) ∨ aggregate U mem < M ∨
        aggregate V mem < M) →
      visitStep U V T M pick st serp = .ok st) ∧
    (((aggregate U mem < T ∧ aggregate V mem < T) ∨ aggregate U mem < M ∨
        aggregate V mem < M) →
      ((st.neighs.getD serp none).getD [] = [] ∧
        visitStep U V T M pick st serp = .error .indexError) ∨
      (∃ mnn ∈ (st.neighs.getD serp none).getD [],
        visitStep U V T M pick st serp = .ok (mergeRegions st serp mnn))) := by
  constructor
  · intro hnp
    rcases visitStep_cases U V T M pick st serp with ⟨hok, _⟩ |
      ⟨mem', hm', hpred, _, _⟩ | ⟨mem', mnn, hm', hpred, _, _⟩
    · exact hok
    · rw [hmem] at hm'
      obtain rfl : mem = mem' := Option.some.inj hm'
      unfold regionPred at hpred
      exact absurd hpred hnp
    · rw [hmem] at hm'
      obtain rfl : mem = mem' := Option.some.inj hm'
      unfold regionPred at hpred
      exact absurd hpred hnp
  · intro hp
    rcases visitStep_cases U V T M pick st serp with ⟨hok, hnone | ⟨mem', hm', hnp⟩⟩ |
      ⟨mem', hm', hpred, hemp, herr⟩ | ⟨mem', mnn, hm', hpred, hmnn, hmerge⟩
    · rw [hmem] at hnone
      exact absurd hnone (by simp)
    · rw [hmem] at hm'
      obtain rfl : mem = mem' := Option.some.inj hm'
      unfold regionPred at hnp
      exact absurd hp hnp
    · exact Or.inl ⟨hemp, herr⟩
    · exact Or.inr ⟨mnn, hmnn, hmerge⟩

/-- Witness for C4 at a concrete input: the initial 2 × 2 state, region 0 with
member list `[0]`, all matrix entries 1, threshold 10, minthreshold 1. -/
theorem c4_merge_predicate_witness :
    (¬ ((aggregate [1, 1, 1, 1] [0] < (10 : ℚ) ∧ aggregate [1, 1, 1, 1] [0] < (10 : ℚ)) ∨
        aggregate [1, 1, 1, 1] [0] < (1 : ℚ) ∨ aggregate [1, 1, 1, 1] [0] < (1 : ℚ)) →
      visitStep [1, 1, 1, 1] [1, 1, 1, 1] 10 1 0 (initState false 2 2) 0
        = .ok (initState false 2 2)) ∧
    (((aggregate [1, 1, 1, 1] [0] < (10 : ℚ) ∧ aggregate [1, 1, 1, 1] [0] < (10 : ℚ)) ∨
        aggregate [1, 1, 1, 1] [0] < (1 : ℚ) ∨ aggregate [1, 1, 1, 1] [0] < (1 : ℚ)) →
      (((initState false 2 2).neighs.getD 0 none).getD [] = [] ∧
        visitStep [1, 1, 1, 1] [1, 1, 1, 1] 10 1 0 (initState false 2 2) 0
          = .error .indexError) ∨
      (∃ mnn ∈ ((initState false 2 2).neighs.getD 0 none).getD [],
        visitStep [1, 1, 1, 1] [1, 1, 1, 1] 10 1 0 (initState false 2 2) 0
          = .ok (mergeRegions (initState false 2 2) 0 mnn))) :=
  c4_merge_predicate [1, 1, 1, 1] [1, 1, 1, 1] 10 1 0 (initState false 2 2) 0 [0]
    (by decide)

/-- C6: refuted as stated (corrected).  In triangular mode the reconstruction
`tril(U) + tril(U)ᵀ − diag(diag(tril(U)))` double-counts mean-filled mass that
the reduction moved between diagonal and off-diagonal cells, so the total is
not conserved.  For A = B = [[4, 0], [0, 0]], threshold 100, minthreshold 1,
triangular mode, the trial succeeds but Amod sums to 16/3 ≠ 4 = sum(A). -/
theorem c6_mass_not_conserved_triangular :
    isOk (serpentin_iteration (fun _ => 0) (fun _ => [0, 2, 1]) (fun _ _ => 0)
        ⟨2, 2, [4, 0, 0, 0]⟩ ⟨2, 2, [4, 0, 0, 0]⟩ 100 1 true) = true ∧
    (outAmod (serpentin_iteration (fun _ => 0) (fun _ => [0, 2, 1]) (fun _ _ => 0)
        ⟨2, 2, [4, 0, 0, 0]⟩ ⟨2, 2, [4, 0, 0, 0]⟩ 100 1 true)).sum ≠
      (⟨2, 2, [4, 0, 0, 0]⟩ : Mat).data.sum :=
  ⟨by decide, by decide⟩

/-- C6 (amended): in non-triangular mode the conservation law does hold
exactly — any successful trial returns Amod with the same total as A and Bmod
with the same total as B, for every random draw sequence. -/
theorem c6_mass_conservation_nontriangular (f : ℚ → ℚ) (perms : ℕ → List ℕ)
    (picks : ℕ → ℕ → ℕ) (A B : Mat) (T M : ℚ)
    (hA : A.data.length = A.rows * A.cols) (hB : B.data.length = B.rows * B.cols)
    (am bm d : List ℚ)
    (h : serpentin_iteration f perms picks A B T M false = .ok (am, bm, d)) :
    am.sum = A.data.sum ∧ bm.sum = B.data.sum := by
  obtain ⟨hv, stF, hc, ham, hbm, _⟩ := iteration_false_ok h
  obtain ⟨hrows, hcols, _⟩ := validate_ok_false hv
  have hInv := serpentinConverge_sinv hc
  subst ham
  subst hbm
  constructor
  · exact meanFill_sum stF.pixels A.data (sinv_meanFill_hyps hInv (by simp [hA]))
  · refine meanFill_sum stF.pixels B.data (sinv_meanFill_hyps hInv ?_)
    rw [hB, ← hrows, ← hcols]
    simp

/-- Witness for the amended C6 at a concrete input: A = B = [[100]], threshold
40, minthreshold 10, one draw sequence; the trial returns ([100], [100], [0])
and both sums are conserved. -/
theorem c6_mass_conservation_nontriangular_witness :
    ([100] : List ℚ).sum = (⟨1, 1, [100]⟩ : Mat).data.sum ∧
    ([100] : List ℚ).sum = (⟨1, 1, [100]⟩ : Mat).data.sum :=
  c6_mass_conservation_nontriangular (fun _ => 0) (fun _ => [0]) (fun _ _ => 0)
    ⟨1, 1, [100]⟩ ⟨1, 1, [100]⟩ 40 10 (by decide) (by decide) [100] [100] [0] (by rfl)

/-- C7: confirmed.  In triangular mode, at every lower-triangle-including-
diagonal position (row i, column j ≤ i, flat index i·n + j) the returned D
carries log2 of the ratio of the returned mean-filled matrices at that
position, and at every strict upper-triangle position D is 0 — the upper
triangle is never mirrored. -/
theorem c7_triangular_ratio (f : ℚ → ℚ) (perms : ℕ → List ℕ) (picks : ℕ → ℕ → ℕ)
    (A B : Mat) (T M : ℚ) (am bm d : List ℚ)
    (h : serpentin_iteration f perms picks A B T M true = .ok (am, bm, d)) :
    (∀ i j, j ≤ i → i < A.rows →
      d.getD (i * A.rows + j) 0
        = f (bm.getD (i * A.rows + j) 0 * 1 / am.getD (i * A.rows + j) 0)) ∧
    (∀ i j, i < j → j < A.rows → d.getD (i * A.rows + j) 0 = 0) := by
  obtain ⟨hv, stF, hc, ham, hbm, hd⟩ := iteration_true_ok h
  subst ham
  subst hbm
  subst hd
  constructor
  · intro i j hj hi
    rw [dTri_getD_low hj hi, amodTri_getD_low hj hi, amodTri_getD_low hj hi]
  · intro i j hij hj
    exact dTri_getD_up hij hj

/-- Witness for C7 at a concrete input: A = B = [[100]] in triangular mode
returns Amod = Bmod = [100] and D = [0]. -/
theorem c7_triangular_ratio_witness :
    (∀ i j, j ≤ i → i < (⟨1, 1, [100]⟩ : Mat).rows →
      ([0] : List ℚ).getD (i * (⟨1, 1, [100]⟩ : Mat).rows + j) 0
        = (fun _ => (0 : ℚ))
            (([100] : List ℚ).getD (i * (⟨1, 1, [100]⟩ : Mat).rows + j) 0 * 1 /
              ([100] : List ℚ).getD (i * (⟨1, 1, [100]⟩ : Mat).rows + j) 0)) ∧
    (∀ i j, i < j → j < (⟨1, 1, [100]⟩ : Mat).rows →
      ([0] : List ℚ).getD (i * (⟨1, 1, [100]⟩ : Mat).rows + j) 0 = 0) :=
  c7_triangular_ratio (fun _ => 0) (fun _ => [0]) (fun _ _ => 0)
    ⟨1, 1, [100]⟩ ⟨1, 1, [100]⟩ 40 10 [100] [100] [0] (by rfl)

/-- Errors escaping the pass loop are IndexError or fuel exhaustion only. -/
theorem mergerLoop_err {U V : List ℚ} {T M : ℚ} {perms : ℕ → List ℕ}
    {picks : ℕ → ℕ → ℕ} :
    ∀ (fuel prev cur p : ℕ) {st : SState} {e : SerpErr},
      mergerLoop U V T M perms picks fuel prev cur p st = .error e →
      e = .outOfFuel ∨ e = .indexError := by
  intro fuel
  induction fuel with
  | zero =>
    intro prev cur p st e h
    unfold mergerLoop at h
    exact Or.inl (Except.error.inj h).symm
  | succ f ih =>
    intro prev cur p st e h
    unfold mergerLoop at h
    by_cases hg : cur = prev
    · rw [if_pos hg] at h
      exact absurd h (by simp)
    · rw [if_neg hg] at h
      cases hpass : runPass U V T M (picks p) (perms p) 0 st with
      | error e2 =>
        rw [hpass] at h
        have he2 : e2 = e := Except.error.inj h
        rw [← he2]
        exact Or.inr (runPass_err (perms p) 0 hpass)
      | ok st' =>
        rw [hpass] at h
        exact ih cur (aliveCount st') (p + 1) h

/-- After successful validation, a failing trial can only raise IndexError
(or exhaust fuel, which never happens). -/
theorem serpentin_iteration_err {f : ℚ → ℚ} {perms : ℕ → List ℕ}
    {picks : ℕ → ℕ → ℕ} {A B : Mat} {T M : ℚ} {tri : Bool} {e : SerpErr}
    (hv : validateInput A B T M tri = .ok ())
    (h : serpentin_iteration f perms picks A B T M tri = .error e) :
    e = .outOfFuel ∨ e = .indexError := by
  unfold serpentin_iteration at h
  rw [hv] at h
  cases hc : serpentinConverge A.data B.data T M tri A.rows A.cols perms picks with
  | error e2 =>
    rw [hc] at h
    have he2 : e2 = e := Except.error.inj h
    rw [← he2]
    unfold serpentinConverge at hc
    exact mergerLoop_err _ 0 1 0 hc
  | ok stF =>
    rw [hc] at h
    cases tri <;> simp at h

/-- Errors of the sequential trial fold are trial errors. -/
theorem binRun_err {f : ℚ → ℚ} {perms2 : ℕ → ℕ → List ℕ}
    {picks2 : ℕ → ℕ → ℕ → ℕ} {A B : Mat} {T M : ℚ} {iterations : ℤ} {tri : Bool}
    {e : SerpErr} (hv : validateInput A B T M tri = .ok ())
    (h : binRun f perms2 picks2 A B T M iterations tri = .error e) :
    e = .outOfFuel ∨ e = .indexError := by
  unfold binRun at h
  revert h
  have haux : ∀ (li : List ℕ) (acc : Except SerpErr (List ℚ × List ℚ × List ℚ)),
      (∀ e2, acc = .error e2 → e2 = .outOfFuel ∨ e2 = .indexError) →
      ∀ e2, li.foldl
        (fun acc t =>
          match acc with
          | .error e => .error e
          | .ok (sA, sB, sK) =>
            match serpentin_iteration f (perms2 t) (picks2 t) A B T M tri with
            | .error e => .error e
            | .ok (At, Bt, Kt) => .ok (addMat sA At, addMat sB Bt, addMat sK Kt))
        acc = .error e2 →
        e2 = .outOfFuel ∨ e2 = .indexError := by
    intro li
    induction li with
    | nil =>
      intro acc hacc e2 h2
      exact hacc e2 h2
    | cons t rest ih =>
      intro acc hacc e2 h2
      rw [List.foldl_cons] at h2
      refine ih _ ?_ e2 h2
      intro e3 h3
      cases acc with
      | error e4 =>
        have : e4 = e3 := Except.error.inj h3
        exact this ▸ hacc e4 rfl
      | ok triple =>
        obtain ⟨sA, sB, sK⟩ := triple
        cases hit : serpentin_iteration f (perms2 t) (picks2 t) A B T M tri with
        | error e5 =>
          rw [hit] at h3
          have : e5 = e3 := Except.error.inj h3
          exact this ▸ serpentin_iteration_err hv hit
        | ok tr =>
          obtain ⟨At, Bt, Kt⟩ := tr
          rw [hit] at h3
          exact absurd h3 (by simp)
  intro h
  exact haux _ _ (fun e2 h2 => absurd h2 (by simp)) e h

/-- C8: refuted as stated (corrected).  `serpentin_binning` never validates
`iterations` or the concurrency parameter: with valid matrices and
iterations = 0, parallel = 0, no error is raised at all — the run returns a
triple (the zero sums divided by zero iterations). -/
theorem c8_no_iteration_validation :
    errOf (serpentin_binning (fun _ => 0) (fun _ _ => [0]) (fun _ _ _ => 0)
      ⟨1, 1, [100]⟩ ⟨1, 1, [100]⟩ 40 10 0 false 0) = none := by
  decide

/-- C8 (amended): the only pre-trial validation of `serpentin_binning` is the
shape check and `minthreshold < threshold`, and it is independent of
`iterations` and `parallel`: whenever `validateInput` fails, the driver
returns exactly that ValueError for every value of `iterations` and
`parallel`; whenever `validateInput` succeeds, no ValueError is ever raised —
in particular neither `iterations ≤ 0` nor `parallel ≤ 0` triggers one. -/
theorem c8_validation_shape_threshold_only (f : ℚ → ℚ) (perms2 : ℕ → ℕ → List ℕ)
    (picks2 : ℕ → ℕ → ℕ → ℕ) (A B : Mat) (T M : ℚ) (iterations parallel : ℤ)
    (tri : Bool) :
    (∀ e, validateInput A B T M tri = .error e →
      errOf (serpentin_binning f perms2 picks2 A B T M iterations tri parallel)
        = some e) ∧
    (validateInput A B T M tri = .ok () →
      ∀ msg, errOf (serpentin_binning f perms2 picks2 A B T M iterations tri parallel)
        ≠ some (.valueError msg)) := by
  constructor
  · intro e he
    unfold serpentin_binning
    rw [he]
    rfl
  · intro hv msg hcontra
    cases hb : serpentin_binning f perms2 picks2 A B T M iterations tri parallel with
    | ok x =>
      rw [hb] at hcontra
      exact absurd hcontra (by simp [errOf])
    | error e2 =>
      rw [hb] at hcontra
      unfold errOf at hcontra
      have he2 : e2 = .valueError msg := Option.some.inj hcontra
      unfold serpentin_binning at hb
      rw [hv] at hb
      cases hr : binRun f perms2 picks2 A B T M iterations tri with
      | ok triple =>
        obtain ⟨sA, sB, sK⟩ := triple
        rw [hr] at hb
        exact absurd hb (by simp)
      | error e3 =>
        rw [hr] at hb
        have he3 : e3 = e2 := Except.error.inj hb
        rcases binRun_err hv hr with h4 | h4 <;> rw [h4] at he3 <;>
          rw [he2] at he3 <;> exact absurd he3 (by simp)

/-- Witness for the amended C8: concrete 1 × 1 matrices, iterations = 0 and
parallel = 0 — validation succeeds and no ValueError is raised. -/
theorem c8_validation_shape_threshold_only_witness :
    (∀ e, validateInput ⟨1, 1, [100]⟩ ⟨1, 1, [100]⟩ 40 10 false = .error e →
      errOf (serpentin_binning (fun _ => 0) (fun _ _ => [0]) (fun _ _ _ => 0)
        ⟨1, 1, [100]⟩ ⟨1, 1, [100]⟩ 40 10 0 false 0) = some e) ∧
    (validateInput ⟨1, 1, [100]⟩ ⟨1, 1, [100]⟩ 40 10 false = .ok () →
      ∀ msg, errOf (serpentin_binning (fun _ => 0) (fun _ _ => [0]) (fun _ _ _ => 0)
        ⟨1, 1, [100]⟩ ⟨1, 1, [100]⟩ 40 10 0 false 0) ≠ some (.valueError msg)) :=
  c8_validation_shape_threshold_only (fun _ => 0) (fun _ _ => [0]) (fun _ _ _ => 0)
    ⟨1, 1, [100]⟩ ⟨1, 1, [100]⟩ 40 10 0 0 false

/-- C2: confirmed.  The alive regions' member sets partition the pixel
universe (each universe pixel has exactly one owner, none outside it, member
sets pairwise disjoint, union covering the universe) at region-graph
initialization, after every successful visit — in particular after every
merge — from any invariant state, and at convergence. -/
theorem c2_partition_invariant (tri : Bool) (r c : ℕ) (U V : List ℚ) (T M : ℚ) :
    Partition tri r c (initState tri r c) ∧
    (∀ (pick : ℕ) (st st' : SState) (serp : ℕ), SInv tri r c st →
      visitStep U V T M pick st serp = .ok st' → Partition tri r c st') ∧
    (∀ (perms : ℕ → List ℕ) (picks : ℕ → ℕ → ℕ) (stF : SState),
      serpentinConverge U V T M tri r c perms picks = .ok stF →
      Partition tri r c stF) := by
  refine ⟨sinv_partition (sinv_init tri r c), ?_, ?_⟩
  · intro pick st st' serp hInv h
    exact sinv_partition (visitStep_ok hInv h).1
  · intro perms picks stF h
    exact sinv_partition (serpentinConverge_sinv h)

/-- Witness for C2: the partition property of the converged state of a
concrete 1 × 1 trial. -/
theorem c2_partition_invariant_witness :
    Partition false 1 1 (initState false 1 1) :=
  (c2_partition_invariant false 1 1 [100] [100] 40 10).2.2 (fun _ => [0])
    (fun _ _ => 0) (initState false 1 1) (by rfl)

/-- C3: confirmed.  For every input and every draw sequence: the fuel bound is
never hit (the loop terminates), the alive count is non-increasing across a
pass, each visit either changes nothing or permanently kills exactly one
region (so at most `initial_count − 1` merge events can occur over a trial,
expressed as `initial − final ≤ initial − 1`), dead regions stay dead across
passes, and the loop returns exactly when the measured count equals the
previous pass's count and otherwise runs another pass. -/
theorem c3_pass_loop_termination (tri : Bool) (r c : ℕ) (U V : List ℚ) (T M : ℚ)
    (perms : ℕ → List ℕ) (picks : ℕ → ℕ → ℕ) :
    serpentinConverge U V T M tri r c perms picks ≠ .error .outOfFuel ∧
    (∀ (p k : ℕ) (st st' : SState), SInv tri r c st →
      runPass U V T M (picks p) (perms p) k st = .ok st' →
      aliveCount st' ≤ aliveCount st) ∧
    (∀ (pick : ℕ) (st st' : SState) (serp : ℕ), SInv tri r c st →
      visitStep U V T M pick st serp = .ok st' →
      st' = st ∨ (aliveCount st' + 1 = aliveCount st ∧
        ∃ mnn, (st.pixels.getD mnn none).isSome ∧ st'.pixels.getD mnn none = none ∧
          ∀ x, x ≠ mnn → ((st'.pixels.getD x none).isSome ↔
            (st.pixels.getD x none).isSome))) ∧
    (∀ (p k : ℕ) (st st' : SState), SInv tri r c st →
      runPass U V T M (picks p) (perms p) k st = .ok st' →
      ∀ x, st.pixels.getD x none = none → st'.pixels.getD x none = none) ∧
    (∀ stF, serpentinConverge U V T M tri r c perms picks = .ok stF →
      aliveCount (initState tri r c) - aliveCount stF ≤ numRegions tri r c - 1) ∧
    (∀ (fuel prev cur p : ℕ) (st : SState),
      (cur = prev →
        mergerLoop U V T M perms picks (fuel + 1) prev cur p st = .ok st) ∧
      (cur ≠ prev →
        mergerLoop U V T M perms picks (fuel + 1) prev cur p st =
          match runPass U V T M (picks p) (perms p) 0 st with
          | .error e => .error e
          | .ok st' =>
            mergerLoop U V T M perms picks fuel cur (aliveCount st') (p + 1) st')) := by
  refine ⟨serpentinConverge_noFuel, ?_, ?_, ?_, ?_, ?_⟩
  · intro p k st st' hInv h
    exact (runPass_ok (perms p) k hInv h).2.1
  · intro pick st st' serp hInv h
    rcases (visitStep_ok hInv h).2 with heq | ⟨hcnt, _, mnn, h1, h2, h3⟩
    · exact Or.inl heq
    · exact Or.inr ⟨hcnt, mnn, h1, h2, h3⟩
  · intro p k st st' hInv h
    exact (runPass_ok (perms p) k hInv h).2.2.2
  · intro stF h
    have hci := aliveCount_init tri r c
    unfold serpentinConverge at h
    have hle := (mergerLoop_ok _ 0 1 0 (sinv_init tri r c) h).2
    rcases Nat.eq_zero_or_pos (numRegions tri r c) with h0 | hpos
    · omega
    · have h1 := mergerLoop_pos _ 0 1 0 (sinv_init tri r c) h (by omega)
      omega
  · intro fuel prev cur p st
    constructor
    · intro hg
      conv_lhs => rw [mergerLoop]
      rw [if_pos hg]
    · intro hg
      conv_lhs => rw [mergerLoop]
      rw [if_neg hg]

/-- Witness for C3: the loop of a concrete 1 × 1 trial never exhausts its
fuel. -/
theorem c3_pass_loop_termination_witness :
    serpentinConverge [100] [100] 40 10 false 1 1 (fun _ => [0]) (fun _ _ => 0)
      ≠ .error .outOfFuel :=
  (c3_pass_loop_termination false 1 1 [100] [100] 40 10 (fun _ => [0])
    (fun _ _ => 0)).1

/-- C5: confirmed.  When a trial converges (given that every region index is
visited each pass), every alive region either meets the thresholds — at least one of
its aggregates reaches `threshold`, and both reach `minthreshold` — or its
remaining neighbour set is empty. -/
theorem c5_convergence_thresholds (tri : Bool) (r c : ℕ) (U V : List ℚ) (T M : ℚ)
    (perms : ℕ → List ℕ) (picks : ℕ → ℕ → ℕ)
    (hcov : ∀ p i, i < numRegions tri r c → i ∈ perms p) (stF : SState)
    (h : serpentinConverge U V T M tri r c perms picks = .ok stF) :
    ∀ i mem, stF.pixels.getD i none = some mem →
      ((T ≤ aggregate U mem ∨ T ≤ aggregate V mem) ∧
        M ≤ aggregate U mem ∧ M ≤ aggregate V mem) ∨
      (stF.neighs.getD i none).getD [] = [] := by
  intro i mem hm
  rcases (serpentinConverge_conv hcov h).2 i mem hm with hnp | hemp
  · exact Or.inl (not_regionPred.mp hnp)
  · exact Or.inr hemp

/-- Witness for C5 at a concrete converged 1 × 1 trial, instantiated at the
single region 0 with member list [0]. -/
theorem c5_convergence_thresholds_witness :
    (((40 : ℚ) ≤ aggregate [100] [0] ∨ (40 : ℚ) ≤ aggregate [100] [0]) ∧
      (10 : ℚ) ≤ aggregate [100] [0] ∧ (10 : ℚ) ≤ aggregate [100] [0]) ∨
    ((initState false 1 1).neighs.getD 0 none).getD [] = [] :=
  c5_convergence_thresholds false 1 1 [100] [100] 40 10 (fun _ => [0])
    (fun _ _ => 0)
    (by
      intro p i hi
      have h1 : numRegions false 1 1 = 1 := by decide
      rw [h1] at hi
      have h2 : i = 0 := by omega
      rw [h2]
      exact List.mem_singleton.mpr rfl)
    (initState false 1 1) (by rfl) 0 [0] (by decide)

/-! ### Helpers for the all-ones scenario -/

theorem getD_replicate_one {n k : ℕ} (hk : k < n) :
    (List.replicate n (1 : ℚ)).getD k 0 = 1 := by
  rw [List.getD_eq_getElem?_getD, List.getElem?_replicate, if_pos hk]
  rfl

theorem aggregate_ones {n : ℕ} : ∀ (mem : List ℕ), (∀ k ∈ mem, k < n) →
    aggregate (List.replicate n 1) mem = (mem.length : ℚ) := by
  intro mem
  induction mem with
  | nil => intro _; simp [aggregate]
  | cons a rest ih =>
    intro h
    unfold aggregate at ih ⊢
    rw [List.map_cons, List.sum_cons,
      getD_replicate_one (h a (List.mem_cons_self a rest)),
      ih (fun k hk => h k (List.mem_cons_of_mem a hk)), List.length_cons]
    push_cast
    ring

theorem alive_exists {st : SState} (h : 1 ≤ aliveCount st) :
    ∃ i, (st.pixels.getD i none).isSome := by
  unfold aliveCount at h
  have hne : (st.pixels.map (fun op => if op.isSome then 1 else 0)).sum ≠ 0 := by
    omega
  obtain ⟨op, hop, hne0⟩ := sum_map_ne_zero hne
  have hs : op.isSome := by
    by_contra hns
    rw [if_neg hns] at hne0
    exact hne0 rfl
  obtain ⟨i, _, hgi⟩ := mem_exists_getD none hop
  exact ⟨i, by rw [hgi]; exact hs⟩

theorem all_none_sum : ∀ (l : List (Option (List ℕ))),
    (∀ j, l.getD j none = none) →
    (l.map (fun op => if op.isSome then 1 else 0)).sum = 0 := by
  intro l
  induction l with
  | nil => intro _; rfl
  | cons a rest ih =>
    intro h
    have ha : a = none := h 0
    rw [List.map_cons, List.sum_cons, ha, ih (fun j => h (j + 1))]
    rfl

theorem aliveCount_eq_one {st : SState} {i : ℕ}
    (hi : (st.pixels.getD i none).isSome)
    (hothers : ∀ j, j ≠ i → st.pixels.getD j none = none) :
    aliveCount st = 1 := by
  have haux : ∀ (l : List (Option (List ℕ))) (i : ℕ), (l.getD i none).isSome →
      (∀ j, j ≠ i → l.getD j none = none) →
      (l.map (fun op => if op.isSome then 1 else 0)).sum = 1 := by
    intro l
    induction l with
    | nil =>
      intro i hi _
      simp [List.getD] at hi
    | cons a rest ih =>
      intro i hi hothers
      cases i with
      | zero =>
        rw [List.getD_cons_zero] at hi
        rw [List.map_cons, List.sum_cons, if_pos hi]
        have hrest : ∀ j, rest.getD j none = none := by
          intro j
          have := hothers (j + 1) (by omega)
          rwa [List.getD_cons_succ] at this
        rw [all_none_sum rest hrest]
      | succ i =>
        rw [List.getD_cons_succ] at hi
        have ha : a = none := by
          have := hothers 0 (by omega)
          rwa [List.getD_cons_zero] at this
        rw [List.map_cons, List.sum_cons, ha]
        have hrest : ∀ j, j ≠ i → rest.getD j none = none := by
          intro j hj
          have := hothers (j + 1) (by omega)
          rwa [List.getD_cons_succ] at this
        rw [ih i hi hrest]
        rfl
  exact haux st.pixels i hi hothers

theorem getD_some_mem {l : List (Option (List ℕ))} {i : ℕ} {v : List ℕ}
    (h : l.getD i none = some v) : some v ∈ l := by
  rw [List.getD_eq_getElem?_getD] at h
  cases hx : l[i]? with
  | none =>
    rw [hx] at h
    exact absurd h (by simp)
  | some op =>
    rw [hx] at h
    simp only [Option.getD_some] at h
    rw [← h]
    exact List.getElem?_mem hx

/-- A live region whose remaining neighbour list is empty owns the entire
pixel universe (non-triangular mode): its member set is closed under grid
adjacency and the grid is connected. -/
theorem empty_neigh_covers {r c : ℕ} {st : SState} (hInv : SInv false r c st)
    {i : ℕ} {mem : List ℕ} (hmem : st.pixels.getD i none = some mem)
    (hemp : (st.neighs.getD i none).getD [] = []) :
    ∀ x ∈ universeL false r c, x ∈ mem := by
  have hsome : (st.neighs.getD i none).isSome := (hInv.aliveIff i).mp (by
    rw [hmem]
    rfl)
  obtain ⟨s, hs⟩ := Option.isSome_iff_exists.mp hsome
  have hsnil : s = [] := by
    rw [hs] at hemp
    simpa using hemp
  subst hsnil
  have hcl0 : ∀ x ∈ mem, ∀ y, Adj false r c x y → y ∈ mem := by
    intro x hx y hadj
    rcases hInv.adjClosed i mem hmem x hx y hadj with hy | ⟨s', j, lj, hs', hj, _, _⟩
    · exact hy
    · rw [hs] at hs'
      obtain rfl : ([] : List ℕ) = s' := Option.some.inj hs'
      exact absurd hj (List.not_mem_nil j)
  have hcl : ∀ a b, a < r → b < c → a * c + b ∈ mem →
      ∀ q ∈ pixel_neighs a b r c, q.1 * c + q.2 ∈ mem := by
    intro a b ha hb hab q hq
    exact hcl0 (a * c + b) hab (q.1 * c + q.2)
      (by
        unfold Adj
        simp only [Bool.false_eq_true, if_false]
        exact ⟨a, b, ha, hb, rfl, q, hq, rfl⟩)
  have hne := hInv.membNE i mem hmem
  obtain ⟨x0, hx0⟩ := List.exists_mem_of_ne_nil mem hne
  obtain ⟨a0, b0, ha0, hb0, hx0eq⟩ :=
    mem_universeL_false.mp (hInv.membU i mem hmem x0 hx0)
  subst hx0eq
  intro x hx
  obtain ⟨a, b, ha, hb, hxeq⟩ := mem_universeL_false.mp hx
  subst hxeq
  exact grid_closed_all hcl ha0 hb0 hx0 a b ha hb

/-- In the all-ones 4 × 4 scenario a visit never raises: a merge-eligible
region always has a neighbour, because a region with no neighbours owns all
16 pixels and then fails the merge predicate (16 ≥ 10 and 16 ≥ 1). -/
theorem onesStep_noerr {st : SState} (hInv : SInv false 4 4 st) (pick serp : ℕ) :
    ∀ e, visitStep (List.replicate 16 1) (List.replicate 16 1) 10 1 pick st serp
      ≠ .error e := by
  intro e herr
  rcases visitStep_cases (List.replicate 16 1) (List.replicate 16 1) 10 1 pick st serp
    with ⟨hok, _⟩ | ⟨mem, hmem, hpred, hemp, h⟩ | ⟨mem, mnn, hmem, hpred, hmnn, h⟩
  · rw [herr] at hok
    exact absurd hok (by simp)
  · have hcov := empty_neigh_covers hInv hmem hemp
    have hnd : mem.Nodup := sinv_memNodup hInv hmem
    have hu16 : (universeL false 4 4).length = 16 := by decide
    have hlen : 16 ≤ mem.length := by
      have h1 := (List.Nodup.subperm (nodup_universeL false 4 4) hcov).length_le
      omega
    have hk : ∀ k ∈ mem, k < 16 := by
      intro k hkm
      have h2 := universeL_lt (hInv.membU serp mem hmem k hkm)
      simpa using h2
    have hagg := aggregate_ones mem hk
    unfold regionPred at hpred
    rw [hagg] at hpred
    have h16 : (16 : ℚ) ≤ (mem.length : ℚ) := by exact_mod_cast hlen
    rcases hpred with ⟨ha, _⟩ | ha | ha <;> linarith
  · rw [herr] at h
    exact absurd h (by simp)

theorem onesPass_noerr (pk : ℕ → ℕ) :
    ∀ (visit : List ℕ) (k : ℕ) {st : SState}, SInv false 4 4 st →
      ∀ e, runPass (List.replicate 16 1) (List.replicate 16 1) 10 1 pk visit k st
        ≠ .error e := by
  intro visit
  induction visit with
  | nil =>
    intro k st hInv e h
    unfold runPass at h
    exact absurd h (by simp)
  | cons serp rest ih =>
    intro k st hInv e h
    unfold runPass at h
    cases hstep : visitStep (List.replicate 16 1) (List.replicate 16 1) 10 1 (pk k)
        st serp with
    | error e2 => exact onesStep_noerr hInv (pk k) serp e2 hstep
    | ok st' =>
      rw [hstep] at h
      exact ih (k + 1) (visitStep_ok hInv hstep).1 e h

theorem onesLoop_noerr (perms : ℕ → List ℕ) (picks : ℕ → ℕ → ℕ) :
    ∀ (fuel prev cur p : ℕ) {st : SState}, SInv false 4 4 st →
      mergerLoop (List.replicate 16 1) (List.replicate 16 1) 10 1 perms picks
        fuel prev cur p st ≠ .error .indexError := by
  intro fuel
  induction fuel with
  | zero =>
    intro prev cur p st hInv h
    unfold mergerLoop at h
    have h2 := Except.error.inj h
    exact SerpErr.noConfusion h2
  | succ f ih =>
    intro prev cur p st hInv h
    unfold mergerLoop at h
    by_cases hg : cur = prev
    · rw [if_pos hg] at h
      exact absurd h (by simp)
    · rw [if_neg hg] at h
      cases hpass : runPass (List.replicate 16 1) (List.replicate 16 1) 10 1
          (picks p) (perms p) 0 st with
      | error e2 =>
        rw [hpass] at h
        exact onesPass_noerr (picks p) (perms p) 0 hInv e2 hpass
      | ok st' =>
        rw [hpass] at h
        exact ih cur (aliveCount st') (p + 1) (runPass_ok (perms p) 0 hInv hpass).1 h

theorem onesConverge_ok (perms : ℕ → List ℕ) (picks : ℕ → ℕ → ℕ) :
    ∃ stF, serpentinConverge (List.replicate 16 1) (List.replicate 16 1) 10 1
      false 4 4 perms picks = .ok stF := by
  cases hc : serpentinConverge (List.replicate 16 1) (List.replicate 16 1) 10 1
      false 4 4 perms picks with
  | ok stF => exact ⟨stF, rfl⟩
  | error e =>
    have hmerr : e = .outOfFuel ∨ e = .indexError := by
      unfold serpentinConverge at hc
      exact mergerLoop_err _ 0 1 0 hc
    rcases hmerr with rfl | rfl
    · exact absurd hc serpentinConverge_noFuel
    · unfold serpentinConverge at hc
      exact absurd hc (onesLoop_noerr perms picks _ 0 1 0 (sinv_init false 4 4))

/-- At convergence of the all-ones 4 × 4 trial exactly one region is alive and
it owns all 16 pixels. -/
theorem onesConverge_single (perms : ℕ → List ℕ) (picks : ℕ → ℕ → ℕ)
    (hcov : ∀ p i, i < 16 → i ∈ perms p) {stF : SState}
    (h : serpentinConverge (List.replicate 16 1) (List.replicate 16 1) 10 1
      false 4 4 perms picks = .ok stF) :
    aliveCount stF = 1 ∧
    ∃ i l, stF.pixels.getD i none = some l ∧ l.length = 16 ∧ ∀ x < 16, x ∈ l := by
  have hcov' : ∀ p i, i < numRegions false 4 4 → i ∈ perms p := by
    have hn : numRegions false 4 4 = 16 := by decide
    rw [hn]
    exact hcov
  obtain ⟨hInv, hconv⟩ := serpentinConverge_conv hcov' h
  have hpart := sinv_partition hInv
  have huniv : universeL false 4 4 = List.range 16 := by decide
  have hu16 : (universeL false 4 4).length = 16 := by decide
  have hpos : 1 ≤ aliveCount stF := by
    unfold serpentinConverge at h
    refine mergerLoop_pos _ 0 1 0 (sinv_init false 4 4) h ?_
    rw [aliveCount_init]
    decide
  obtain ⟨i0, hi0⟩ := alive_exists hpos
  obtain ⟨l0, hl0⟩ := Option.isSome_iff_exists.mp hi0
  have hsub16 : ∀ {j : ℕ} {lj : List ℕ}, stF.pixels.getD j none = some lj →
      ∀ k ∈ lj, k < 16 := by
    intro j lj hlj k hkm
    have h2 := universeL_lt (hInv.membU j lj hlj k hkm)
    simpa using h2
  have hlen10 : ∀ {j : ℕ} {lj : List ℕ}, stF.pixels.getD j none = some lj →
      ¬ regionPred (List.replicate 16 1) (List.replicate 16 1) 10 1 lj →
      10 ≤ lj.length := by
    intro j lj hlj hnp
    obtain ⟨hor, hm1, hm2⟩ := not_regionPred.mp hnp
    rw [aggregate_ones lj (hsub16 hlj)] at hor
    have h3 : (10 : ℚ) ≤ (lj.length : ℚ) := by
      rcases hor with h3 | h3 <;> exact h3
    exact_mod_cast h3
  have honly : ∀ j, j ≠ i0 → stF.pixels.getD j none = none := by
    intro j hj
    by_contra hjn
    cases hx : stF.pixels.getD j none with
    | none => exact hjn hx
    | some lj =>
      have hlj := hx
      have hdisj : ∀ x ∈ l0, x ∉ lj :=
        hpart.disj i0 j l0 lj (fun he => hj he.symm) hl0 hlj
      rcases hconv i0 l0 hl0 with hnp0 | hemp0
      · rcases hconv j lj hlj with hnpj | hempj
        · have h100 := hlen10 hl0 hnp0
          have h10j := hlen10 hlj hnpj
          have hndapp : (l0 ++ lj).Nodup := by
            rw [List.nodup_append]
            exact ⟨sinv_memNodup hInv hl0, sinv_memNodup hInv hlj, hdisj⟩
          have happsub : ∀ x ∈ l0 ++ lj, x ∈ universeL false 4 4 := by
            intro x hxm
            rcases List.mem_append.mp hxm with hxm | hxm
            · exact hInv.membU i0 l0 hl0 x hxm
            · exact hInv.membU j lj hlj x hxm
          have hle := (List.Nodup.subperm hndapp happsub).length_le
          rw [List.length_append] at hle
          omega
        · have hcovj := empty_neigh_covers hInv hlj hempj
          obtain ⟨x0, hx0⟩ := List.exists_mem_of_ne_nil l0 (hInv.membNE i0 l0 hl0)
          exact hdisj x0 hx0 (hcovj x0 (hInv.membU i0 l0 hl0 x0 hx0))
      · have hcov0 := empty_neigh_covers hInv hl0 hemp0
        obtain ⟨xj, hxj⟩ := List.exists_mem_of_ne_nil lj (hInv.membNE j lj hlj)
        exact hdisj xj (hcov0 xj (hInv.membU j lj hlj xj hxj)) hxj
  have hcontains : ∀ x ∈ universeL false 4 4, x ∈ l0 := by
    intro x hx
    obtain ⟨jj, ll, hjl, hxl⟩ := hpart.cover x hx
    have hji : jj = i0 := by
      by_contra hne
      rw [honly jj hne] at hjl
      exact absurd hjl (by simp)
    rw [hji] at hjl
    obtain rfl : l0 = ll := Option.some.inj (hl0.symm.trans hjl)
    exact hxl
  refine ⟨aliveCount_eq_one hi0 honly, i0, l0, hl0, ?_, ?_⟩
  · have h1 := (List.Nodup.subperm (nodup_universeL false 4 4) hcontains).length_le
    have h2 := (List.Nodup.subperm (sinv_memNodup hInv hl0)
      (hInv.membU i0 l0 hl0)).length_le
    omega
  · intro x hx
    refine hcontains x ?_
    rw [huniv]
    exact List.mem_range.mpr hx

/-- C9: confirmed.  For A = B = the 4 × 4 all-ones matrix, threshold 10,
minthreshold 1, non-triangular mode, and every draw sequence (with each pass
visiting every region slot), the trial converges without error to a single
alive region owning all 16 pixels, and returns Amod and Bmod with every entry
1 and D with every entry 0. -/
theorem c9_all_ones_4x4 (f : ℚ → ℚ) (hf : f 1 = 0) (perms : ℕ → List ℕ)
    (picks : ℕ → ℕ → ℕ) (hcov : ∀ p i, i < 16 → i ∈ perms p) :
    ∃ stF am bm d,
      serpentinConverge (List.replicate 16 1) (List.replicate 16 1) 10 1 false 4 4
          perms picks = .ok stF ∧
      aliveCount stF = 1 ∧
      (∃ i l, stF.pixels.getD i none = some l ∧ l.length = 16 ∧ ∀ x < 16, x ∈ l) ∧
      serpentin_iteration f perms picks ⟨4, 4, List.replicate 16 1⟩
          ⟨4, 4, List.replicate 16 1⟩ 10 1 false = .ok (am, bm, d) ∧
      (∀ k < 16, am.getD k 0 = 1) ∧ (∀ k < 16, bm.getD k 0 = 1) ∧
      (∀ k < 16, d.getD k 0 = 0) := by
  obtain ⟨stF, hc⟩ := onesConverge_ok perms picks
  obtain ⟨hone, i0, l0, hl0, hlen0, hall⟩ := onesConverge_single perms picks hcov hc
  have hInv := serpentinConverge_sinv hc
  have hiter : serpentin_iteration f perms picks ⟨4, 4, List.replicate 16 1⟩
      ⟨4, 4, List.replicate 16 1⟩ 10 1 false
      = .ok (meanFill stF.pixels (List.replicate 16 1),
             meanFill stF.pixels (List.replicate 16 1),
             dFull f (meanFill stF.pixels (List.replicate 16 1))
               (meanFill stF.pixels (List.replicate 16 1))) := by
    unfold serpentin_iteration
    have hv : validateInput ⟨4, 4, List.replicate 16 1⟩ ⟨4, 4, List.replicate 16 1⟩
        10 1 false = .ok () := by rfl
    rw [hv]
    dsimp only
    rw [hc]
    rfl
  have hps : some l0 ∈ stF.pixels := getD_some_mem hl0
  have hrange : ∀ l', some l' ∈ stF.pixels →
      ∀ k ∈ l', k < (List.replicate 16 (1 : ℚ)).length := by
    intro l' hl' k hk
    obtain ⟨j, _, hj⟩ := mem_exists_getD none hl'
    have h2 := universeL_lt (hInv.membU j l' hj k hk)
    simpa using h2
  have hpw := sinv_pairwise hInv
  have hagg : aggregate (List.replicate 16 1) l0 = (16 : ℚ) := by
    rw [aggregate_ones l0 (fun k hk => by simpa using hrange l0 hps k hk), hlen0]
    norm_num
  have hmf : ∀ k, k < 16 →
      (meanFill stF.pixels (List.replicate 16 1)).getD k 0 = 1 := by
    intro k hk
    rw [meanFill_getD_mem stF.pixels (List.replicate 16 1) hps (hall k hk)
      (by simpa using hk) hrange hpw, hagg, hlen0]
    norm_num
  refine ⟨stF, _, _, _, hc, hone, ⟨i0, l0, hl0, hlen0, hall⟩, hiter, ?_, ?_, ?_⟩
  · intro k hk
    exact hmf k hk
  · intro k hk
    exact hmf k hk
  · intro k hk
    have hmlen : (meanFill stF.pixels (List.replicate 16 (1 : ℚ))).length = 16 := by
      rw [meanFill_length]
      simp
    rw [dFull_getD (by rw [hmlen]; exact hk), hmf k hk]
    rw [show (1 : ℚ) * 1 / 1 = 1 by norm_num]
    exact hf

/-- Witness for C9: the all-ones 4 × 4 run with the identity visit order,
pick index 0 and log2 modelled by the zero function. -/
theorem c9_all_ones_4x4_witness :
    ∃ stF am bm d,
      serpentinConverge (List.replicate 16 1) (List.replicate 16 1) 10 1 false 4 4
          (fun _ => List.range 16) (fun _ _ => 0) = .ok stF ∧
      aliveCount stF = 1 ∧
      (∃ i l, stF.pixels.getD i none = some l ∧ l.length = 16 ∧ ∀ x < 16, x ∈ l) ∧
      serpentin_iteration (fun _ => 0) (fun _ => List.range 16) (fun _ _ => 0)
          ⟨4, 4, List.replicate 16 1⟩ ⟨4, 4, List.replicate 16 1⟩ 10 1 false
        = .ok (am, bm, d) ∧
      (∀ k < 16, am.getD k 0 = 1) ∧ (∀ k < 16, bm.getD k 0 = 1) ∧
      (∀ k < 16, d.getD k 0 = 0) :=
  c9_all_ones_4x4 (fun _ => 0) rfl (fun _ => List.range 16) (fun _ _ => 0)
    (fun p i hi => List.mem_range.mpr hi)

/-! ### Lower-triangle noninterference (triangular mode) -/

theorem aggregate_lowAgree {n : ℕ} {u u2 : List ℚ} (hL : LowAgree n u u2)
    {mem : List ℕ} (hm : ∀ k ∈ mem, ∃ i j, j ≤ i ∧ i < n ∧ k = i * n + j) :
    aggregate u mem = aggregate u2 mem := by
  unfold aggregate
  refine congrArg List.sum (List.map_congr_left ?_)
  intro k hk
  obtain ⟨i, j, hj, hi, rfl⟩ := hm k hk
  exact hL i j hj hi

theorem visitStep_lowAgree {n c : ℕ} {u u2 v v2 : List ℚ} {T M : ℚ}
    (hU : LowAgree n u u2) (hV : LowAgree n v v2) {st : SState}
    (hInv : SInv true n c st) (pick serp : ℕ) :
    visitStep u v T M pick st serp = visitStep u2 v2 T M pick st serp := by
  unfold visitStep
  cases hpix : st.pixels.getD serp none with
  | none => rfl
  | some mem =>
    have hmem : ∀ k ∈ mem, ∃ i j, j ≤ i ∧ i < n ∧ k = i * n + j := by
      intro k hk
      exact mem_universeL_true.mp (hInv.membU serp mem hpix k hk)
    dsimp only
    rw [aggregate_lowAgree hU hmem, aggregate_lowAgree hV hmem]

theorem runPass_lowAgree {n c : ℕ} {u u2 v v2 : List ℚ} {T M : ℚ}
    (hU : LowAgree n u u2) (hV : LowAgree n v v2) (pk : ℕ → ℕ) :
    ∀ (visit : List ℕ) (k : ℕ) {st : SState}, SInv true n c st →
      runPass u v T M pk visit k st = runPass u2 v2 T M pk visit k st := by
  intro visit
  induction visit with
  | nil => intro k st _; rfl
  | cons serp rest ih =>
    intro k st hInv
    unfold runPass
    rw [visitStep_lowAgree hU hV hInv (pk k) serp]
    cases hstep : visitStep u2 v2 T M (pk k) st serp with
    | error e => rfl
    | ok st' => exact ih (k + 1) (visitStep_ok hInv hstep).1

theorem mergerLoop_lowAgree {n c : ℕ} {u u2 v v2 : List ℚ} {T M : ℚ}
    (hU : LowAgree n u u2) (hV : LowAgree n v v2) {perms : ℕ → List ℕ}
    {picks : ℕ → ℕ → ℕ} :
    ∀ (fuel prev cur p : ℕ) {st : SState}, SInv true n c st →
      mergerLoop u v T M perms picks fuel prev cur p st
        = mergerLoop u2 v2 T M perms picks fuel prev cur p st := by
  intro fuel
  induction fuel with
  | zero => intro prev cur p st _; rfl
  | succ f ih =>
    intro prev cur p st hInv
    unfold mergerLoop
    by_cases hg : cur = prev
    · rw [if_pos hg, if_pos hg]
    · rw [if_neg hg, if_neg hg, runPass_lowAgree hU hV (picks p) (perms p) 0 hInv]
      cases hpass : runPass u2 v2 T M (picks p) (perms p) 0 st with
      | error e => rfl
      | ok st' =>
        exact ih cur (aliveCount st') (p + 1) (runPass_ok (perms p) 0 hInv hpass).1

theorem serpentinConverge_lowAgree {r c : ℕ} {u u2 v v2 : List ℚ} {T M : ℚ}
    (hU : LowAgree r u u2) (hV : LowAgree r v v2) (perms : ℕ → List ℕ)
    (picks : ℕ → ℕ → ℕ) :
    serpentinConverge u v T M true r c perms picks
      = serpentinConverge u2 v2 T M true r c perms picks := by
  unfold serpentinConverge
  exact mergerLoop_lowAgree hU hV _ 0 1 0 (sinv_init true r c)

theorem writeAll_lowAgree {n : ℕ} {u u2 : List ℚ} (hlen : u.length = u2.length)
    (hL : LowAgree n u u2) (v : ℚ) (mem : List ℕ) :
    LowAgree n (writeAll mem v u) (writeAll mem v u2) := by
  intro i j hj hi
  by_cases hx : i * n + j ∈ mem
  · by_cases hlt : i * n + j < u.length
    · rw [writeAll_getD_mem v mem u hx hlt,
        writeAll_getD_mem v mem u2 hx (by omega)]
    · rw [getD_of_ge _ _ (by rw [writeAll_length]; omega),
        getD_of_ge _ _ (by rw [writeAll_length]; omega)]
  · rw [writeAll_getD_notMem v mem u hx, writeAll_getD_notMem v mem u2 hx]
    exact hL i j hj hi

theorem meanFill_lowAgree {n : ℕ} : ∀ (ps : List (Option (List ℕ)))
    {u u2 : List ℚ}, u.length = u2.length → LowAgree n u u2 →
    (∀ l, some l ∈ ps → ∀ k ∈ l, ∃ i j, j ≤ i ∧ i < n ∧ k = i * n + j) →
    (meanFill ps u).length = (meanFill ps u2).length ∧
    LowAgree n (meanFill ps u) (meanFill ps u2) := by
  intro ps
  induction ps with
  | nil => intro u u2 hlen hL _; exact ⟨hlen, hL⟩
  | cons op rest ih =>
    intro u u2 hlen hL hps
    cases op with
    | none =>
      exact ih hlen hL (fun l hl => hps l (List.mem_cons_of_mem none hl))
    | some mem =>
      show (meanFill rest (writeAll mem (aggregate u mem * 1 / (mem.length : ℚ)) u)).length
          = (meanFill rest (writeAll mem (aggregate u2 mem * 1 / (mem.length : ℚ)) u2)).length
        ∧ LowAgree n (meanFill rest (writeAll mem (aggregate u mem * 1 / (mem.length : ℚ)) u))
          (meanFill rest (writeAll mem (aggregate u2 mem * 1 / (mem.length : ℚ)) u2))
      rw [aggregate_lowAgree hL (hps mem (List.mem_cons_self (some mem) rest))]
      refine ih ?_ ?_ (fun l hl => hps l (List.mem_cons_of_mem (some mem) hl))
      · rw [writeAll_length, writeAll_length, hlen]
      · exact writeAll_lowAgree hlen hL _ mem

theorem amodTri_lowAgree {n : ℕ} {u u2 : List ℚ} (hL : LowAgree n u u2) :
    amodTri n u = amodTri n u2 := by
  unfold amodTri
  refine List.map_congr_left ?_
  intro k hk
  have hkn : k < n * n := List.mem_range.mp hk
  have hn0 : 0 < n := by
    by_contra hn
    have : n = 0 := by omega
    rw [this] at hkn
    omega
  have h1 : k / n < n := Nat.div_lt_of_lt_mul (by omega)
  have h2 : k % n < n := Nat.mod_lt k hn0
  have e1 : trilEntry n u (k / n) (k % n) = trilEntry n u2 (k / n) (k % n) := by
    unfold trilEntry
    by_cases hc : k % n ≤ k / n
    · rw [if_pos hc, if_pos hc]
      exact hL (k / n) (k % n) hc h1
    · rw [if_neg hc, if_neg hc]
  have e2 : trilEntry n u (k % n) (k / n) = trilEntry n u2 (k % n) (k / n) := by
    unfold trilEntry
    by_cases hc : k / n ≤ k % n
    · rw [if_pos hc, if_pos hc]
      exact hL (k % n) (k / n) hc h2
    · rw [if_neg hc, if_neg hc]
  rw [e1, e2]

theorem dTri_lowAgree {f : ℚ → ℚ} {n : ℕ} {u u2 v v2 : List ℚ}
    (hU : LowAgree n u u2) (hV : LowAgree n v v2) :
    dTri f n u v = dTri f n u2 v2 := by
  unfold dTri
  refine List.map_congr_left ?_
  intro k hk
  have hkn : k < n * n := List.mem_range.mp hk
  have hn0 : 0 < n := by
    by_contra hn
    have : n = 0 := by omega
    rw [this] at hkn
    omega
  have h1 : k / n < n := Nat.div_lt_of_lt_mul (by omega)
  by_cases hc : k % n ≤ k / n
  · rw [if_pos hc, if_pos hc]
    have h5 := Nat.div_add_mod k n
    have h6 : k / n * n + k % n = k := by
      rw [Nat.mul_comm]
      exact h5
    have hu := hU (k / n) (k % n) hc h1
    have hv := hV (k / n) (k % n) hc h1
    rw [h6] at hu hv
    rw [hu, hv]
  · rw [if_neg hc, if_neg hc]

/-- C10: confirmed.  In triangular mode the result of `serpentin_iteration`
depends only on the lower-triangle-including-diagonal entries of the inputs:
two well-formed input pairs of the same shape agreeing on every entry with
row ≥ col produce identical result triples under the same draw sequence, so
entries strictly above the diagonal never influence any output entry. -/
theorem c10_lower_triangle_noninterference (f : ℚ → ℚ) (perms : ℕ → List ℕ)
    (picks : ℕ → ℕ → ℕ) (A B A2 B2 : Mat) (T M : ℚ)
    (hAr : A2.rows = A.rows) (hAc : A2.cols = A.cols)
    (hBr : B2.rows = B.rows) (hBc : B2.cols = B.cols)
    (hwA : A.data.length = A.rows * A.cols)
    (hwA2 : A2.data.length = A2.rows * A2.cols)
    (hwB : B.data.length = B.rows * B.cols)
    (hwB2 : B2.data.length = B2.rows * B2.cols)
    (hLA : LowAgree A.rows A.data A2.data)
    (hLB : LowAgree A.rows B.data B2.data) :
    serpentin_iteration f perms picks A B T M true
      = serpentin_iteration f perms picks A2 B2 T M true := by
  have hval : validateInput A B T M true = validateInput A2 B2 T M true := by
    unfold validateInput
    rw [hAr, hAc, hBr, hBc]
  unfold serpentin_iteration
  rw [hval]
  cases hv : validateInput A2 B2 T M true with
  | error e => rfl
  | ok uu =>
    cases uu
    have hvA : validateInput A B T M true = .ok () := by rw [hval, hv]
    obtain ⟨hABr, hABc, hsq, _⟩ := validate_ok_true hvA
    have hc : serpentinConverge A.data B.data T M true A.rows A.cols perms picks
        = serpentinConverge A2.data B2.data T M true A2.rows A2.cols perms picks := by
      rw [hAr, hAc]
      exact serpentinConverge_lowAgree hLA hLB perms picks
    rw [hc]
    cases hc2 : serpentinConverge A2.data B2.data T M true A2.rows A2.cols
        perms picks with
    | error e => rfl
    | ok stF =>
      have hInv : SInv true A.rows A.cols stF := by
        have h0 := serpentinConverge_sinv hc2
        rw [hAr, hAc] at h0
        exact h0
      have hps : ∀ l, some l ∈ stF.pixels → ∀ k ∈ l,
          ∃ i j, j ≤ i ∧ i < A.rows ∧ k = i * A.rows + j := by
        intro l hl k hk
        obtain ⟨jj, _, hj⟩ := mem_exists_getD none hl
        exact mem_universeL_true.mp (hInv.membU jj l hj k hk)
      have hlenA : A.data.length = A2.data.length := by
        rw [hwA, hwA2, hAr, hAc]
      have hlenB : B.data.length = B2.data.length := by
        rw [hwB, hwB2, hBr, hBc, ← hABr, ← hABc]
      obtain ⟨hlU, hLU⟩ := meanFill_lowAgree stF.pixels hlenA hLA hps
      obtain ⟨hlV, hLV⟩ := meanFill_lowAgree stF.pixels hlenB hLB hps
      dsimp only
      rw [hAr, amodTri_lowAgree hLU, amodTri_lowAgree hLV, dTri_lowAgree hLU hLV]
      rfl

/-- Witness for C10: two concrete 2 × 2 triangular input pairs differing only
in the strictly-upper entry (value 0 versus 7) produce identical results. -/
theorem c10_lower_triangle_noninterference_witness :
    serpentin_iteration (fun _ => 0) (fun _ => [0, 2, 1]) (fun _ _ => 0)
        ⟨2, 2, [4, 0, 0, 0]⟩ ⟨2, 2, [4, 0, 0, 0]⟩ 100 1 true
      = serpentin_iteration (fun _ => 0) (fun _ => [0, 2, 1]) (fun _ _ => 0)
        ⟨2, 2, [4, 7, 0, 0]⟩ ⟨2, 2, [4, 7, 0, 0]⟩ 100 1 true :=
  c10_lower_triangle_noninterference (fun _ => 0) (fun _ => [0, 2, 1])
    (fun _ _ => 0) ⟨2, 2, [4, 0, 0, 0]⟩ ⟨2, 2, [4, 0, 0, 0]⟩
    ⟨2, 2, [4, 7, 0, 0]⟩ ⟨2, 2, [4, 7, 0, 0]⟩ 100 1 rfl rfl rfl rfl
    (by decide) (by decide) (by decide) (by decide)
    (by
      intro i j hj hi
      interval_cases i
      · interval_cases j
        · rfl
      · interval_cases j
        · rfl
        · rfl)
    (by
      intro i j hj hi
      interval_cases i
      · interval_cases j
        · rfl
      · interval_cases j
        · rfl
        · rfl)
